import Mathlib

/-!
Verification of the quantification and linear-fitting engine of `layers_edx`.

This file gives a shallow embedding, in Lean, of the parts of the code base
that the checked properties talk about:

* `layers_edx/fitting/filter_fit/interval.py` (interval algebra, non-zero support),
* `layers_edx/fitting/filter_fit/filter.py` (top-hat filter kernel),
* `layers_edx/fitting/filter_fit/filtered_spectrum.py` (digital filtering),
* `layers_edx/kratio.py` (k-ratio container with fuzzy lookup),
* `layers_edx/fitting/culling.py` (statistical culling),
* `layers_edx/fitting/linear_fit.py` (iterative constrained least-squares loop),
* `layers_edx/spectrum/base_spectrum.py` (background corrected integral).

Python floats are modelled by `ℚ` (exact arithmetic, no NaN/inf); where the
code produces `float('inf')` or a genuine square root the embedding uses
`EReal`/`Real.sqrt` at the boundary.  Fallible code (code that can raise) is
modelled with `Option`, `none` standing for the raised exception.
-/

namespace LayersEdx

/-! ## Intervals (`layers_edx/fitting/filter_fit/interval.py`)

Python ints are `ℤ`.  `Interval` is the class `Interval` with fields
`lower`, `upper`; the docstring calls it "a continuous range of integers
[lower, upper)". -/

/-- Class `Interval`: a continuous range of integers `[lower, upper)`. -/
structure Interval where
  lower : ℤ
  upper : ℤ
deriving DecidableEq, Repr

namespace Interval

/-- Static method `Interval.merge`: interval over the minimum of the lower
values to the maximum of the upper values. -/
def merge (interval1 interval2 : Interval) : Interval :=
  ⟨min interval1.lower interval2.lower, max interval1.upper interval2.upper⟩

/-- Static method `Interval.overlaps`:
`interval1.lower <= interval2.upper and interval2.lower <= interval1.upper`. -/
def overlaps (interval1 interval2 : Interval) : Bool :=
  decide (interval1.lower ≤ interval2.upper) && decide (interval2.lower ≤ interval1.upper)

/-- The while-loop of `Interval.sortmerge`, made total by a fuel argument:
starting at position `i`, if neighbours `i`, `i+1` overlap they are replaced by
their merge and the scan restarts at the front (`i = 0`), else `i` advances;
the loop stops when `i+1` reaches the end of the list.  In Python the merge
writes `intervals[i] = merge(...)` and pops entry `i+1`, which is the
`take/cons/drop` surgery below. -/
def mergeLoop : ℕ → ℕ → List Interval → List Interval
  | 0, _, l => l
  | fuel + 1, i, l =>
    if h : i + 1 < l.length then
      if overlaps (l.get ⟨i, by omega⟩) (l.get ⟨i + 1, h⟩) then
        mergeLoop fuel 0
          (l.take i ++ merge (l.get ⟨i, by omega⟩) (l.get ⟨i + 1, h⟩) :: l.drop (i + 2))
      else
        mergeLoop fuel (i + 1) l
    else l

/-- Class method `Interval.sortmerge`: stable sort by the `lower` bound
(Python's `list.sort(key=lambda x: x.lower)`), then the merge loop.  The fuel
`len * len + len + 1` strictly dominates the loop's termination measure, so
the loop always runs to completion (proved below). -/
def sortmerge (intervals : List Interval) : List Interval :=
  let sorted := intervals.mergeSort (fun a b => decide (a.lower ≤ b.lower))
  mergeLoop (sorted.length * sorted.length + sorted.length + 1) 0 sorted

/-- Effective index of a Python/numpy slice endpoint `x` for an array of
length `length`: negative values count from the end, then the result is
clamped into `[0, length]`. -/
def npSliceIndex (x : ℤ) (length : ℕ) : ℤ :=
  min (max (if x < 0 then x + length else x) 0) length

/-- One slice assignment `bool_arr[lo:hi] = True` (with already-normalized
endpoints), walking the array with the running index `ch`. -/
def setTrueRange (lo hi : ℤ) : ℤ → List Bool → List Bool
  | _, [] => []
  | ch, b :: rest =>
    (if lo ≤ ch ∧ ch < hi then true else b) :: setTrueRange lo hi (ch + 1) rest

/-- Class method `Interval.extract`: a boolean array of the given `length`,
with `bool_arr[interval.lower:interval.upper] = True` for each interval
(Python slice semantics for the endpoints). -/
def extract (length : ℕ) (intervals : List Interval) : List Bool :=
  intervals.foldl
    (fun arr interval =>
      setTrueRange (npSliceIndex interval.lower length)
        (npSliceIndex interval.upper length) 0 arr)
    (List.replicate length false)

/-- The pointwise union ("logical or") of the masks `extract length [iv]` of
the individual intervals, the specification-side object of the sortmerge
claim. -/
def unionMask (length : ℕ) (intervals : List Interval) : List Bool :=
  intervals.foldr (fun iv acc => (extract length [iv]).zipWith (· || ·) acc)
    (List.replicate length false)

end Interval

/-- Helper for `np.argmax(arr != 0)`: the index of the first non-zero entry,
`0` when every entry is zero (numpy's `argmax` of an all-`False` boolean array
is `0`). -/
def npArgmaxNonzero (data : List ℚ) : ℕ :=
  match data.findIdx? (fun x => decide (x ≠ 0)) with
  | some i => i
  | none => 0

/-- Class `NonZeroInterval`:
`lower = argmax(data != 0)` and `upper = len(data) - 1 - argmax(data[::-1] != 0)`. -/
def nonZeroInterval (data : List ℚ) : Interval :=
  ⟨npArgmaxNonzero data, (data.length : ℤ) - 1 - npArgmaxNonzero data.reverse⟩

namespace Interval

/-- Pure membership of an integer in the member sets of a list of intervals
(the mathematical union, before any slicing/clamping). -/
def Cover (intervals : List Interval) (x : ℤ) : Prop :=
  ∃ iv ∈ intervals, iv.lower ≤ x ∧ x < iv.upper

/-- All intervals of the list have a non-negative lower bound and are not
reversed. -/
def Valid (intervals : List Interval) : Prop :=
  ∀ iv ∈ intervals, 0 ≤ iv.lower ∧ iv.lower ≤ iv.upper

lemma mem_merge_iff {a b : Interval} (hov : overlaps a b = true) (x : ℤ) :
    ((merge a b).lower ≤ x ∧ x < (merge a b).upper) ↔
      ((a.lower ≤ x ∧ x < a.upper) ∨ (b.lower ≤ x ∧ x < b.upper)) := by
  simp only [overlaps, Bool.and_eq_true, decide_eq_true_eq] at hov
  simp only [merge]
  omega

lemma list_split_two {α : Type} (l : List α) (i : ℕ) (h : i + 1 < l.length) :
    l.take i ++ l.get ⟨i, by omega⟩ :: l.get ⟨i + 1, h⟩ :: l.drop (i + 2) = l := by
  have h1 : l.drop i = l.get ⟨i, by omega⟩ :: l.drop (i + 1) :=
    List.drop_eq_getElem_cons (by omega)
  have h2 : l.drop (i + 1) = l.get ⟨i + 1, h⟩ :: l.drop (i + 2) :=
    List.drop_eq_getElem_cons h
  conv_rhs => rw [← List.take_append_drop i l, h1, h2]

lemma cover_append (l₁ l₂ : List Interval) (x : ℤ) :
    Cover (l₁ ++ l₂) x ↔ Cover l₁ x ∨ Cover l₂ x := by
  simp only [Cover, List.mem_append]
  constructor
  · rintro ⟨iv, h | h, hx⟩
    · exact Or.inl ⟨iv, h, hx⟩
    · exact Or.inr ⟨iv, h, hx⟩
  · rintro (⟨iv, h, hx⟩ | ⟨iv, h, hx⟩)
    · exact ⟨iv, Or.inl h, hx⟩
    · exact ⟨iv, Or.inr h, hx⟩

lemma cover_cons (iv : Interval) (l : List Interval) (x : ℤ) :
    Cover (iv :: l) x ↔ (iv.lower ≤ x ∧ x < iv.upper) ∨ Cover l x := by
  simp only [Cover, List.mem_cons]
  constructor
  · rintro ⟨jv, h | h, hx⟩
    · exact Or.inl (h ▸ hx)
    · exact Or.inr ⟨jv, h, hx⟩
  · rintro (hx | ⟨jv, h, hx⟩)
    · exact ⟨iv, Or.inl rfl, hx⟩
    · exact ⟨jv, Or.inr h, hx⟩

/-- The merge loop never changes which integers are covered: each merge of an
overlapping neighbour pair replaces the two intervals by one with exactly the
union of their member sets. -/
lemma cover_mergeLoop : ∀ (fuel i : ℕ) (l : List Interval) (x : ℤ),
    Cover (mergeLoop fuel i l) x ↔ Cover l x := by
  intro fuel
  induction fuel with
  | zero => intro i l x; rfl
  | succ fuel ih =>
    intro i l x
    rw [mergeLoop]
    by_cases h : i + 1 < l.length
    · rw [dif_pos h]
      by_cases hov : overlaps (l.get ⟨i, by omega⟩) (l.get ⟨i + 1, h⟩) = true
      · rw [if_pos hov, ih]
        conv_rhs => rw [← list_split_two l i h]
        rw [cover_append, cover_append, cover_cons, cover_cons, cover_cons,
          mem_merge_iff hov]
        tauto
      · rw [if_neg hov, ih]
    · rw [dif_neg h]

/-- The merge loop preserves validity of all member intervals. -/
lemma valid_mergeLoop : ∀ (fuel i : ℕ) (l : List Interval),
    Valid l → Valid (mergeLoop fuel i l) := by
  intro fuel
  induction fuel with
  | zero => intro i l hv; exact hv
  | succ fuel ih =>
    intro i l hv
    rw [mergeLoop]
    by_cases h : i + 1 < l.length
    · rw [dif_pos h]
      by_cases hov : overlaps (l.get ⟨i, by omega⟩) (l.get ⟨i + 1, h⟩) = true
      · rw [if_pos hov]
        refine ih 0 _ ?_
        intro iv hm
        rcases List.mem_append.mp hm with hm | hm
        · exact hv iv (List.mem_of_mem_take hm)
        · rcases List.mem_cons.mp hm with hm | hm
          · subst hm
            have ha := hv (l.get ⟨i, by omega⟩) (List.get_mem l _ _)
            have hb := hv (l.get ⟨i + 1, h⟩) (List.get_mem l _ _)
            simp only [merge]
            omega
          · exact hv iv (List.mem_of_mem_drop hm)
      · rw [if_neg hov]
        exact ih (i + 1) l hv
    · rw [dif_neg h]
      exact hv

/-- Sortedness (non-decreasing lower bounds). -/
def SortedLower (l : List Interval) : Prop :=
  l.Pairwise (fun a b => a.lower ≤ b.lower)

lemma sortedLower_mergeLoop : ∀ (fuel i : ℕ) (l : List Interval),
    SortedLower l → SortedLower (mergeLoop fuel i l) := by
  intro fuel
  induction fuel with
  | zero => intro i l hs; exact hs
  | succ fuel ih =>
    intro i l hs
    rw [mergeLoop]
    by_cases h : i + 1 < l.length
    · rw [dif_pos h]
      by_cases hov : overlaps (l.get ⟨i, by omega⟩) (l.get ⟨i + 1, h⟩) = true
      · rw [if_pos hov]
        refine ih 0 _ ?_
        have hsplit := list_split_two l i h
        rw [← hsplit] at hs
        simp only [SortedLower] at hs ⊢
        rw [List.pairwise_append] at hs ⊢
        obtain ⟨hs₁, hs₂, hcross⟩ := hs
        rw [List.pairwise_cons] at hs₂
        obtain ⟨ha, hs₃⟩ := hs₂
        rw [List.pairwise_cons] at hs₃
        obtain ⟨hb, hs₄⟩ := hs₃
        refine ⟨hs₁, ?_, ?_⟩
        · rw [List.pairwise_cons]
          refine ⟨?_, hs₄⟩
          intro c hc
          have h1 := ha c (List.mem_cons_of_mem _ hc)
          simp only [merge]
          omega
        · intro x hx y hy
          rcases List.mem_cons.mp hy with hy | hy
          · subst hy
            have h1 := hcross x hx _ (List.mem_cons_self _ _)
            have h2 := hcross x hx _ (List.mem_cons_of_mem _ (List.mem_cons_self _ _))
            simp only [merge]
            omega
          · exact hcross x hx y (List.mem_cons_of_mem _ (List.mem_cons_of_mem _ hy))
      · rw [if_neg hov]
        exact ih (i + 1) l hs
    · rw [dif_neg h]
      exact hs

/-- No two neighbouring entries of the list overlap (the exit condition of the
merge loop). -/
def NoAdjOverlap (l : List Interval) : Prop :=
  ∀ j, (h : j + 1 < l.length) →
    overlaps (l.get ⟨j, by omega⟩) (l.get ⟨j + 1, h⟩) = false

/-- With fuel strictly above the measure `len·len + (len - i)`, the merge loop
runs to completion: its result has no adjacent overlapping pair.  The second
hypothesis is the scan invariant (no overlapping pair before position `i`). -/
lemma mergeLoop_noAdjOverlap : ∀ (fuel i : ℕ) (l : List Interval),
    l.length * l.length + (l.length - i) < fuel →
    (∀ j, j + 1 ≤ i → (h : j + 1 < l.length) →
      overlaps (l.get ⟨j, by omega⟩) (l.get ⟨j + 1, h⟩) = false) →
    NoAdjOverlap (mergeLoop fuel i l) := by
  intro fuel
  induction fuel with
  | zero => intro i l hfuel; omega
  | succ fuel ih =>
    intro i l hfuel hinv
    rw [mergeLoop]
    by_cases h : i + 1 < l.length
    · rw [dif_pos h]
      by_cases hov : overlaps (l.get ⟨i, by omega⟩) (l.get ⟨i + 1, h⟩) = true
      · rw [if_pos hov]
        set l' := l.take i ++ merge (l.get ⟨i, by omega⟩) (l.get ⟨i + 1, h⟩) :: l.drop (i + 2) with hl'
        have hlen' : l'.length = l.length - 1 := by
          rw [hl']
          simp
          omega
        refine ih 0 l' ?_ ?_
        · rw [hlen']
          have hL : 2 ≤ l.length := by omega
          obtain ⟨K, hK⟩ : ∃ K, l.length = K + 2 := ⟨l.length - 2, by omega⟩
          rw [hK] at hfuel ⊢
          have hexp : (K + 2 - 1) * (K + 2 - 1) + (K + 2 - 1 - 0) = K * K + 3 * K + 2 := by
            have h1 : K + 2 - 1 = K + 1 := by omega
            rw [h1, Nat.sub_zero]
            ring
          rw [hexp]
          have hexp2 : (K + 2) * (K + 2) = K * K + 4 * K + 4 := by ring
          rw [hexp2] at hfuel
          omega
        · intro j hj
          omega
      · rw [if_neg hov]
        refine ih (i + 1) l ?_ ?_
        · have : l.length - (i + 1) < l.length - i := by omega
          have hgen : l.length * l.length + (l.length - i) ≤ fuel := by omega
          omega
        · intro j hj hjl
          by_cases hji : j + 1 ≤ i
          · exact hinv j hji hjl
          · have hji' : j = i := by omega
            subst hji'
            simp only [Bool.not_eq_true] at hov
            exact hov
    · rw [dif_neg h]
      intro j hjl
      exact hinv j (by omega) hjl

/-- On a list with no adjacent overlaps the merge loop is the identity, for
any fuel and any starting position. -/
lemma mergeLoop_id_of_noAdjOverlap : ∀ (fuel i : ℕ) (l : List Interval),
    NoAdjOverlap l → mergeLoop fuel i l = l := by
  intro fuel
  induction fuel with
  | zero => intro i l _; rfl
  | succ fuel ih =>
    intro i l hno
    rw [mergeLoop]
    by_cases h : i + 1 < l.length
    · rw [dif_pos h]
      have := hno i h
      rw [this]
      simp only [Bool.false_eq_true, if_false]
      exact ih (i + 1) l hno
    · rw [dif_neg h]

/-- Membership of channel `ch` in the sliced (Python slice semantics) member
sets of a list of intervals, for an array of the given `length`. -/
def SliceCover (intervals : List Interval) (length : ℕ) (ch : ℕ) : Prop :=
  ∃ iv ∈ intervals,
    npSliceIndex iv.lower length ≤ (ch : ℤ) ∧ (ch : ℤ) < npSliceIndex iv.upper length

lemma sliceCover_cons (iv : Interval) (l : List Interval) (L ch : ℕ) :
    SliceCover (iv :: l) L ch ↔
      (npSliceIndex iv.lower L ≤ (ch : ℤ) ∧ (ch : ℤ) < npSliceIndex iv.upper L)
        ∨ SliceCover l L ch := by
  simp only [SliceCover, List.mem_cons]
  constructor
  · rintro ⟨jv, h | h, hx⟩
    · exact Or.inl (h ▸ hx)
    · exact Or.inr ⟨jv, h, hx⟩
  · rintro (hx | ⟨jv, h, hx⟩)
    · exact ⟨iv, Or.inl rfl, hx⟩
    · exact ⟨jv, Or.inr h, hx⟩

lemma setTrueRange_length (lo hi : ℤ) : ∀ (arr : List Bool) (c : ℤ),
    (setTrueRange lo hi c arr).length = arr.length := by
  intro arr
  induction arr with
  | nil => intro c; rfl
  | cons b rest ih => intro c; simp [setTrueRange, ih]

lemma setTrueRange_getD (lo hi : ℤ) : ∀ (arr : List Bool) (c : ℤ) (j : ℕ),
    (setTrueRange lo hi c arr).getD j false =
      if j < arr.length ∧ lo ≤ c + (j : ℤ) ∧ c + (j : ℤ) < hi then true
      else arr.getD j false := by
  intro arr
  induction arr with
  | nil =>
    intro c j
    simp [setTrueRange]
  | cons b rest ih =>
    intro c j
    cases j with
    | zero =>
      simp only [setTrueRange, List.getD_cons_zero, List.length_cons, Nat.cast_zero,
        add_zero]
      have hc : (0 < rest.length + 1 ∧ lo ≤ c ∧ c < hi) ↔ (lo ≤ c ∧ c < hi) := by
        omega
      rw [if_congr hc rfl rfl]
    | succ j =>
      simp only [setTrueRange, List.getD_cons_succ, List.length_cons]
      rw [ih (c + 1) j]
      have hc : (j < rest.length ∧ lo ≤ c + 1 + (j : ℤ) ∧ c + 1 + (j : ℤ) < hi) ↔
          (j + 1 < rest.length + 1 ∧ lo ≤ c + ((j : ℕ) + 1 : ℕ) ∧
            c + ((j : ℕ) + 1 : ℕ) < hi) := by
        push_cast
        omega
      rw [if_congr hc rfl rfl]

lemma replicate_getD (L ch : ℕ) : (List.replicate L false).getD ch false = false := by
  induction L generalizing ch with
  | zero => rfl
  | succ L ih =>
    cases ch with
    | zero => rfl
    | succ ch => simpa [List.replicate_succ] using ih ch

lemma extract_aux_length (L : ℕ) : ∀ (I : List Interval) (arr : List Bool),
    (I.foldl
      (fun arr interval =>
        setTrueRange (npSliceIndex interval.lower L)
          (npSliceIndex interval.upper L) 0 arr) arr).length = arr.length := by
  intro I
  induction I with
  | nil => intro arr; rfl
  | cons iv I ih =>
    intro arr
    rw [List.foldl_cons, ih, setTrueRange_length]

lemma extract_length (L : ℕ) (I : List Interval) : (extract L I).length = L := by
  rw [extract, extract_aux_length, List.length_replicate]

lemma extract_aux_getD (L : ℕ) : ∀ (I : List Interval) (arr : List Bool) (ch : ℕ),
    ((I.foldl
        (fun arr interval =>
          setTrueRange (npSliceIndex interval.lower L)
            (npSliceIndex interval.upper L) 0 arr) arr).getD ch false = true) ↔
      ((ch < arr.length ∧ SliceCover I L ch) ∨ arr.getD ch false = true) := by
  intro I
  induction I with
  | nil =>
    intro arr ch
    simp [SliceCover]
  | cons iv I ih =>
    intro arr ch
    rw [List.foldl_cons, ih, setTrueRange_length, setTrueRange_getD, sliceCover_cons]
    simp only [zero_add]
    by_cases hmem : npSliceIndex iv.lower L ≤ (ch : ℤ) ∧ (ch : ℤ) < npSliceIndex iv.upper L
    · by_cases hch : ch < arr.length
      · rw [if_pos ⟨hch, hmem⟩]
        tauto
      · rw [if_neg (by tauto)]
        tauto
    · rw [if_neg (by tauto)]
      tauto

lemma extract_getD (L : ℕ) (I : List Interval) (ch : ℕ) :
    (extract L I).getD ch false = true ↔ (ch < L ∧ SliceCover I L ch) := by
  rw [extract, extract_aux_getD, List.length_replicate, replicate_getD]
  simp

lemma zipWith_or_getD : ∀ (a b : List Bool) (j : ℕ), a.length = b.length →
    (List.zipWith (· || ·) a b).getD j false = (a.getD j false || b.getD j false) := by
  intro a
  induction a with
  | nil =>
    intro b j hlen
    cases b with
    | nil => simp
    | cons x xs => simp at hlen
  | cons x xs ih =>
    intro b j hlen
    cases b with
    | nil => simp at hlen
    | cons y ys =>
      cases j with
      | zero => rfl
      | succ j =>
        simp only [List.zipWith_cons_cons, List.getD_cons_succ]
        exact ih ys j (by simpa using hlen)

lemma unionMask_cons (L : ℕ) (iv : Interval) (I : List Interval) :
    unionMask L (iv :: I) = (extract L [iv]).zipWith (· || ·) (unionMask L I) := rfl

lemma unionMask_length (L : ℕ) (I : List Interval) : (unionMask L I).length = L := by
  induction I with
  | nil => simp [unionMask]
  | cons iv I ih =>
    rw [unionMask_cons, List.length_zipWith, ih, extract_length]
    simp

lemma sliceCover_singleton (iv : Interval) (L ch : ℕ) :
    SliceCover [iv] L ch ↔
      (npSliceIndex iv.lower L ≤ (ch : ℤ) ∧ (ch : ℤ) < npSliceIndex iv.upper L) := by
  rw [sliceCover_cons]
  simp [SliceCover]

lemma unionMask_getD (L : ℕ) (I : List Interval) (ch : ℕ) :
    (unionMask L I).getD ch false = true ↔ (ch < L ∧ SliceCover I L ch) := by
  induction I with
  | nil =>
    rw [unionMask, List.foldr_nil, replicate_getD]
    simp [SliceCover]
  | cons iv I ih =>
    rw [unionMask_cons,
      zipWith_or_getD _ _ _ (by rw [extract_length, unionMask_length]),
      Bool.or_eq_true, ih, extract_getD, sliceCover_singleton, sliceCover_cons]
    tauto

lemma npSliceIndex_of_nonneg (x : ℤ) (L : ℕ) (hx : 0 ≤ x) :
    npSliceIndex x L = min x L := by
  rw [npSliceIndex]
  omega

/-- For lists of valid intervals, slice membership is pure interval membership
restricted to `[0, length)`. -/
lemma sliceCover_iff_cover (I : List Interval) (L : ℕ) (hvalid : Valid I) (ch : ℕ) :
    SliceCover I L ch ↔ (Cover I (ch : ℤ) ∧ ch < L) := by
  constructor
  · rintro ⟨iv, hm, h1, h2⟩
    obtain ⟨hl, hu⟩ := hvalid iv hm
    rw [npSliceIndex_of_nonneg _ _ hl] at h1
    rw [npSliceIndex_of_nonneg _ _ (le_trans hl hu)] at h2
    refine ⟨⟨iv, hm, by omega, by omega⟩, by omega⟩
  · rintro ⟨⟨iv, hm, h1, h2⟩, hch⟩
    obtain ⟨hl, hu⟩ := hvalid iv hm
    refine ⟨iv, hm, ?_, ?_⟩
    · rw [npSliceIndex_of_nonneg _ _ hl]
      omega
    · rw [npSliceIndex_of_nonneg _ _ (le_trans hl hu)]
      omega

lemma bool_list_ext (a b : List Bool) (hlen : a.length = b.length)
    (h : ∀ ch, (a.getD ch false = true ↔ b.getD ch false = true)) : a = b := by
  refine List.ext_getElem hlen ?_
  intro n h1 h2
  have := h n
  rw [List.getD_eq_getElem _ _ h1, List.getD_eq_getElem _ _ h2] at this
  cases ha : a[n] <;> cases hb : b[n] <;> simp [ha, hb] at this ⊢

/-- The comparison used by `intervals.sort(key=lambda x: x.lower)`. -/
def lowerLE (a b : Interval) : Bool := decide (a.lower ≤ b.lower)

lemma sortmerge_eq (I : List Interval) :
    sortmerge I =
      mergeLoop ((I.mergeSort lowerLE).length * (I.mergeSort lowerLE).length +
        (I.mergeSort lowerLE).length + 1) 0 (I.mergeSort lowerLE) := rfl

lemma sortedLower_mergeSort (I : List Interval) : SortedLower (I.mergeSort lowerLE) := by
  have h := @List.sorted_mergeSort Interval lowerLE
    (fun a b c hab hbc => by
      simp only [lowerLE, decide_eq_true_eq] at hab hbc ⊢
      omega)
    (fun a b => by
      simp only [lowerLE, Bool.or_eq_true, decide_eq_true_eq]
      omega) I
  exact h.imp (fun hab => by simpa [lowerLE] using hab)

lemma noAdjOverlap_sortmerge (I : List Interval) : NoAdjOverlap (sortmerge I) := by
  rw [sortmerge_eq]
  refine mergeLoop_noAdjOverlap _ 0 _ ?_ ?_
  · simp only [Nat.sub_zero]
    exact Nat.lt_succ_self _
  · intro j hj
    omega

lemma sortedLower_sortmerge (I : List Interval) : SortedLower (sortmerge I) := by
  rw [sortmerge_eq]
  exact sortedLower_mergeLoop _ 0 _ (sortedLower_mergeSort I)

lemma valid_sortmerge {I : List Interval} (hvalid : Valid I) : Valid (sortmerge I) := by
  rw [sortmerge_eq]
  refine valid_mergeLoop _ 0 _ ?_
  intro iv hm
  exact hvalid iv ((List.mergeSort_perm I lowerLE).mem_iff.mp hm)

lemma cover_sortmerge (I : List Interval) (x : ℤ) :
    Cover (sortmerge I) x ↔ Cover I x := by
  rw [sortmerge_eq, cover_mergeLoop]
  constructor
  · rintro ⟨iv, hm, hx⟩
    exact ⟨iv, (List.mergeSort_perm I lowerLE).mem_iff.mp hm, hx⟩
  · rintro ⟨iv, hm, hx⟩
    exact ⟨iv, (List.mergeSort_perm I lowerLE).mem_iff.mpr hm, hx⟩

lemma extract_sortmerge_eq_unionMask (L : ℕ) (I : List Interval) (hvalid : Valid I) :
    extract L (sortmerge I) = unionMask L I := by
  refine bool_list_ext _ _ (by rw [extract_length, unionMask_length]) ?_
  intro ch
  rw [extract_getD, unionMask_getD,
    sliceCover_iff_cover _ _ (valid_sortmerge hvalid),
    sliceCover_iff_cover _ _ hvalid, cover_sortmerge]

lemma unionMask_perm (L : ℕ) {I I' : List Interval} (hperm : I.Perm I') :
    unionMask L I = unionMask L I' := by
  refine bool_list_ext _ _ (by rw [unionMask_length, unionMask_length]) ?_
  intro ch
  rw [unionMask_getD, unionMask_getD]
  constructor
  · rintro ⟨h1, iv, hm, hx⟩
    exact ⟨h1, iv, hperm.mem_iff.mp hm, hx⟩
  · rintro ⟨h1, iv, hm, hx⟩
    exact ⟨h1, iv, hperm.mem_iff.mpr hm, hx⟩

end Interval

/-- C4 (amended): for every list `I` of intervals with `0 ≤ lower` and
`lower ≤ upper` and every length `L`, `Interval.sortmerge` is idempotent, and
the boolean mask `extract(L, sortmerge(I))` equals the pointwise union of
`extract(L, [i])` over `i ∈ I`, for any permutation of `I`.  (Relative to the
original claim this adds `0 ≤ lower`: a negative lower bound is re-interpreted
by Python slice semantics as counting from the end of the array, which breaks
the union property; see the counterexample.) -/
theorem C4_sortmerge_idempotent_extract_union (I : List Interval) (L : ℕ)
    (hvalid : ∀ iv ∈ I, 0 ≤ iv.lower ∧ iv.lower ≤ iv.upper) :
    Interval.sortmerge (Interval.sortmerge I) = Interval.sortmerge I ∧
      Interval.extract L (Interval.sortmerge I) = Interval.unionMask L I ∧
      ∀ I' : List Interval, I.Perm I' →
        Interval.extract L (Interval.sortmerge I') = Interval.unionMask L I := by
  refine ⟨?_, ?_, ?_⟩
  · rw [Interval.sortmerge_eq (Interval.sortmerge I)]
    have hms : (Interval.sortmerge I).mergeSort Interval.lowerLE =
        Interval.sortmerge I :=
      List.mergeSort_of_sorted
        ((Interval.sortedLower_sortmerge I).imp fun h => decide_eq_true h)
    rw [hms]
    exact Interval.mergeLoop_id_of_noAdjOverlap _ 0 _ (Interval.noAdjOverlap_sortmerge I)
  · exact Interval.extract_sortmerge_eq_unionMask L I hvalid
  · intro I' hperm
    have hvalid' : Interval.Valid I' := fun iv hm => hvalid iv (hperm.mem_iff.mpr hm)
    rw [Interval.extract_sortmerge_eq_unionMask L I' hvalid']
    exact Interval.unionMask_perm L hperm.symm

/-- C4 counterexample: the intervals `[-3, 2)` and `[0, 5)` both satisfy
`lower ≤ upper` (the claim's only hypothesis), yet after merging them to
`[-3, 5)` the slice `bool_arr[-3:5]` is empty (Python wraps the negative
index), so the extracted mask is not the union of the members' masks. -/
theorem C4_sortmerge_counterexample :
    (∀ iv ∈ [Interval.mk (-3) 2, Interval.mk 0 5], iv.lower ≤ iv.upper) ∧
      Interval.extract 10 (Interval.sortmerge [Interval.mk (-3) 2, Interval.mk 0 5]) ≠
        Interval.unionMask 10 [Interval.mk (-3) 2, Interval.mk 0 5] := by
  constructor
  · decide
  · have hms : ([Interval.mk (-3) 2, Interval.mk 0 5].mergeSort Interval.lowerLE) =
        [Interval.mk (-3) 2, Interval.mk 0 5] :=
      List.mergeSort_of_sorted (by decide)
    rw [Interval.sortmerge_eq, hms]
    decide

/-- C4 witness: the amended theorem applied to the concrete interval list
`[[0, 2), [1, 4)]` and length `6`. -/
theorem C4_sortmerge_idempotent_extract_union_witness :
    (∀ iv ∈ [Interval.mk 0 2, Interval.mk 1 4], 0 ≤ iv.lower ∧ iv.lower ≤ iv.upper) ∧
      (Interval.sortmerge (Interval.sortmerge [Interval.mk 0 2, Interval.mk 1 4]) =
          Interval.sortmerge [Interval.mk 0 2, Interval.mk 1 4] ∧
        Interval.extract 6 (Interval.sortmerge [Interval.mk 0 2, Interval.mk 1 4]) =
          Interval.unionMask 6 [Interval.mk 0 2, Interval.mk 1 4] ∧
        ∀ I' : List Interval, List.Perm [Interval.mk 0 2, Interval.mk 1 4] I' →
          Interval.extract 6 (Interval.sortmerge I') =
            Interval.unionMask 6 [Interval.mk 0 2, Interval.mk 1 4]) :=
  ⟨by decide, C4_sortmerge_idempotent_extract_union [Interval.mk 0 2, Interval.mk 1 4] 6
    (by decide)⟩

/-- Specification-side predicate: `i` is the index of the first non-zero
sample of `data`. -/
def IsFirstNonzero (data : List ℚ) (i : ℕ) : Prop :=
  ∃ h : i < data.length, data.get ⟨i, h⟩ ≠ 0 ∧
    ∀ j, (hj : j < data.length) → j < i → data.get ⟨j, hj⟩ = 0

/-- Specification-side predicate: `i` is the index of the last non-zero
sample of `data`. -/
def IsLastNonzero (data : List ℚ) (i : ℕ) : Prop :=
  ∃ h : i < data.length, data.get ⟨i, h⟩ ≠ 0 ∧
    ∀ j, (hj : j < data.length) → i < j → data.get ⟨j, hj⟩ = 0

lemma npArgmaxNonzero_of_exists (data : List ℚ) (hx : ∃ x ∈ data, x ≠ 0) :
    IsFirstNonzero data (npArgmaxNonzero data) := by
  have hany : data.any (fun x => decide (x ≠ 0)) = true := by
    rw [List.any_eq_true]
    obtain ⟨x, hxm, hx0⟩ := hx
    exact ⟨x, hxm, by simpa using hx0⟩
  have hsome : (data.findIdx? (fun x => decide (x ≠ 0))).isSome = true := by
    rw [List.findIdx?_isSome, hany]
  obtain ⟨i, hi⟩ := Option.isSome_iff_exists.mp hsome
  have hval : npArgmaxNonzero data = i := by
    unfold npArgmaxNonzero
    rw [hi]
  rw [List.findIdx?_eq_some_iff_getElem] at hi
  obtain ⟨hlen, hp, hbefore⟩ := hi
  rw [hval]
  refine ⟨hlen, by simpa using hp, ?_⟩
  intro j hj hji
  have := hbefore j hji
  simpa using this

lemma npArgmaxNonzero_of_all_zero (data : List ℚ) (hx : ∀ x ∈ data, x = 0) :
    npArgmaxNonzero data = 0 := by
  have : data.findIdx? (fun x => decide (x ≠ 0)) = none := by
    rw [List.findIdx?_eq_none_iff]
    intro x hxm
    simpa using hx x hxm
  unfold npArgmaxNonzero
  rw [this]

/-- C6 (amended): for non-empty `data` with a non-zero sample, `NonZeroInterval`
records the first and the last non-zero index; for entirely-zero non-empty
`data`, `lower = 0` and `upper = len(data) - 1` (not `0`). -/
theorem C6_nonZeroInterval_bounds (data : List ℚ) (hne : data ≠ []) :
    ((∃ x ∈ data, x ≠ 0) →
      ∃ lo hi : ℕ, (nonZeroInterval data).lower = lo ∧
        (nonZeroInterval data).upper = hi ∧
        IsFirstNonzero data lo ∧ IsLastNonzero data hi)
    ∧ ((∀ x ∈ data, x = 0) →
      (nonZeroInterval data).lower = 0 ∧
        (nonZeroInterval data).upper = (data.length : ℤ) - 1) := by
  constructor
  · intro hx
    have hrev : ∃ x ∈ data.reverse, x ≠ 0 := by
      obtain ⟨x, hxm, hx0⟩ := hx
      exact ⟨x, List.mem_reverse.mpr hxm, hx0⟩
    obtain ⟨hlenr, hgetr, hbeforer⟩ := npArgmaxNonzero_of_exists data.reverse hrev
    obtain ⟨hlen, hget, hbefore⟩ := npArgmaxNonzero_of_exists data hx
    set ir := npArgmaxNonzero data.reverse with hir
    have hrlen : ir < data.length := by simpa using hlenr
    refine ⟨npArgmaxNonzero data, data.length - 1 - ir, rfl, ?_, ?_, ?_⟩
    · show (data.length : ℤ) - 1 - ir = (data.length - 1 - ir : ℕ)
      omega
    · exact ⟨hlen, hget, hbefore⟩
    · have hhi : data.length - 1 - ir < data.length := by omega
      refine ⟨hhi, ?_, ?_⟩
      · have : data.reverse.get ⟨ir, hlenr⟩ = data.get ⟨data.length - 1 - ir, hhi⟩ := by
          simp [List.get_eq_getElem, List.getElem_reverse]
        rwa [this] at hgetr
      · intro j hj hgt
        have hjr : data.length - 1 - j < ir := by omega
        have hjr' : data.length - 1 - j < data.reverse.length := by
          simp; omega
        have := hbeforer (data.length - 1 - j) hjr' hjr
        have heq : data.reverse.get ⟨data.length - 1 - j, hjr'⟩ = data.get ⟨j, hj⟩ := by
          simp [List.get_eq_getElem, List.getElem_reverse]
          congr 1
          omega
        rwa [heq] at this
  · intro hz
    have h1 : npArgmaxNonzero data = 0 := npArgmaxNonzero_of_all_zero data hz
    have h2 : npArgmaxNonzero data.reverse = 0 := by
      refine npArgmaxNonzero_of_all_zero data.reverse ?_
      intro x hxm
      exact hz x (List.mem_reverse.mp hxm)
    constructor
    · show ((npArgmaxNonzero data : ℤ)) = 0
      rw [h1]; rfl
    · show (data.length : ℤ) - 1 - (npArgmaxNonzero data.reverse : ℤ) = (data.length : ℤ) - 1
      rw [h2]; ring

/-- C6 counterexample: the entirely-zero array `[0, 0]` gets
`upper = len - 1 = 1`, not `0` as the claim states. -/
theorem C6_counterexample :
    (∀ x ∈ [(0 : ℚ), 0], x = 0) ∧ (nonZeroInterval [(0 : ℚ), 0]).upper ≠ 0 := by
  constructor
  · decide
  · decide

/-- C6 witness: the amended theorem applied to the concrete array `[0, 3, 0]`. -/
theorem C6_nonZeroInterval_bounds_witness :
    ([(0 : ℚ), 3, 0] ≠ []) ∧
      (((∃ x ∈ [(0 : ℚ), 3, 0], x ≠ 0) →
        ∃ lo hi : ℕ, (nonZeroInterval [(0 : ℚ), 3, 0]).lower = lo ∧
          (nonZeroInterval [(0 : ℚ), 3, 0]).upper = hi ∧
          IsFirstNonzero [(0 : ℚ), 3, 0] lo ∧ IsLastNonzero [(0 : ℚ), 3, 0] hi)
      ∧ ((∀ x ∈ [(0 : ℚ), 3, 0], x = 0) →
        (nonZeroInterval [(0 : ℚ), 3, 0]).lower = 0 ∧
          (nonZeroInterval [(0 : ℚ), 3, 0]).upper = (([(0 : ℚ), 3, 0].length : ℤ)) - 1)) :=
  ⟨by decide, C6_nonZeroInterval_bounds [(0 : ℚ), 3, 0] (by decide)⟩

/-! ## Top-hat filter (`layers_edx/fitting/filter_fit/filter.py`) -/

/-- Python's builtin `round` on a rational: nearest integer, ties to the even
integer (banker's rounding). -/
def pyRound (q : ℚ) : ℤ :=
  if Int.fract q = 1 / 2 then (if Even ⌊q⌋ then ⌊q⌋ else ⌊q⌋ + 1) else round q

/-- The half-width `m` computed by `TopHatFilter._initialize_filter`:
`m = max(int(round(width / channel_width)) - 1 // 2, 2)`.  Note that in the
source `- 1 // 2` parses as subtracting `1 // 2 = 0`; the translation keeps
that behaviour (`1 / 2 = 0` in `ℤ`). -/
def topHatM (width channel_width : ℚ) : ℤ :=
  max (pyRound (width / channel_width) - 1 / 2) 2

/-- Kernel construction of `TopHatFilter._initialize_filter` for given flank
half-width `n` and centre half-width `m` (the code sets `n = m`): a list of
length `(2*n) + (2*m) + 1` that is `-1` outside `[n, n + 2*m + 1)`, then the
central `2*m + 1` entries are overwritten with `k = 2*n / (2*m + 1)`. -/
def topHatBuild (n m : ℕ) : List ℚ :=
  let filterLen := (2 * n) + (2 * m) + 1
  let newFilter : List ℚ := (List.range filterLen).map
    (fun i => if i < n ∨ n + (2 * m) + 1 ≤ i then -1 else 0)
  let k : ℚ := (2 * (n : ℚ)) / (2 * (m : ℚ) + 1)
  (List.range ((2 * m) + 1)).foldl (fun acc i => acc.set (i + n) k) newFilter

/-- Method `TopHatFilter._initialize_filter`: the stored kernel `self._filter`. -/
def topHatFilter (width channel_width : ℚ) : List ℚ :=
  let m := (topHatM width channel_width).toNat
  let n := m
  topHatBuild n m

lemma getD_replicate {α : Type} (a d : α) (n j : ℕ) :
    (List.replicate n a).getD j d = if j < n then a else d := by
  induction n generalizing j with
  | zero => simp
  | succ n ih =>
    cases j with
    | zero => simp [List.replicate_succ]
    | succ j => simpa [List.replicate_succ, Nat.succ_lt_succ_iff] using ih j

lemma getD_append {α : Type} (l₁ l₂ : List α) (d : α) (j : ℕ) :
    (l₁ ++ l₂).getD j d = if j < l₁.length then l₁.getD j d else l₂.getD (j - l₁.length) d := by
  induction l₁ generalizing j with
  | nil => simp
  | cons x xs ih =>
    cases j with
    | zero => simp
    | succ j => simpa [Nat.succ_lt_succ_iff] using ih j

lemma map_range_getD {α : Type} (f : ℕ → α) (t j : ℕ) (d : α) :
    ((List.range t).map f).getD j d = if j < t then f j else d := by
  by_cases h : j < t
  · rw [if_pos h, List.getD_eq_getElem _ _ (by simpa using h)]
    simp
  · rw [if_neg h]
    apply List.getD_eq_default
    simpa using h

lemma set_getD {α : Type} (d a : α) : ∀ (L : List α) (i j : ℕ),
    (L.set i a).getD j d = if i = j ∧ j < L.length then a else L.getD j d := by
  intro L
  induction L with
  | nil => intro i j; simp
  | cons x xs ih =>
    intro i j
    cases i with
    | zero =>
      cases j with
      | zero => simp
      | succ j => simp [List.set]
    | succ i =>
      cases j with
      | zero => simp [List.set]
      | succ j =>
        simp only [List.set, List.getD_cons_succ, List.length_cons]
        rw [ih i j]
        have hc : (i = j ∧ j < xs.length) ↔ (i + 1 = j + 1 ∧ j + 1 < xs.length + 1) := by
          omega
        rw [if_congr hc rfl rfl]

lemma foldl_set_length {α : Type} (a : α) (p : ℕ) : ∀ (r : List ℕ) (L : List α),
    (r.foldl (fun acc i => acc.set (i + p) a) L).length = L.length := by
  intro r
  induction r with
  | nil => intro L; rfl
  | cons x xs ih => intro L; rw [List.foldl_cons, ih, List.length_set]

lemma foldl_set_range_getD (k : ℚ) : ∀ (t : ℕ) (L : List ℚ) (p j : ℕ),
    ((List.range t).foldl (fun acc i => acc.set (i + p) k) L).getD j 0 =
      if p ≤ j ∧ j < p + t ∧ j < L.length then k else L.getD j 0 := by
  intro t
  induction t with
  | zero =>
    intro L p j
    simp only [List.range_zero, List.foldl_nil]
    rw [if_neg (by omega)]
  | succ t ih =>
    intro L p j
    rw [List.range_succ, List.foldl_append, List.foldl_cons, List.foldl_nil,
      set_getD, foldl_set_length, ih]
    by_cases h1 : t + p = j ∧ j < L.length
    · rw [if_pos h1, if_pos (by omega)]
    · rw [if_neg h1]
      by_cases h2 : p ≤ j ∧ j < p + t ∧ j < L.length
      · rw [if_pos h2, if_pos (by omega)]
      · rw [if_neg h2, if_neg (by omega)]

/-- The constructed kernel is exactly `n` entries `-1`, then `2*m + 1` entries
`k = 2n/(2m+1)`, then `n` entries `-1`. -/
lemma topHatBuild_eq (n m : ℕ) :
    topHatBuild n m =
      List.replicate n (-1) ++
        List.replicate (2 * m + 1) ((2 * (n : ℚ)) / (2 * (m : ℚ) + 1)) ++
        List.replicate n (-1) := by
  set k : ℚ := (2 * (n : ℚ)) / (2 * (m : ℚ) + 1) with hk
  have hlenL : (topHatBuild n m).length = (2 * n) + (2 * m) + 1 := by
    rw [topHatBuild, foldl_set_length]
    simp
  refine List.ext_getElem ?_ ?_
  · rw [hlenL]
    simp only [List.length_append, List.length_replicate]
    omega
  · intro j h₁ h₂
    rw [← List.getD_eq_getElem _ 0 h₁, ← List.getD_eq_getElem _ 0 h₂]
    rw [hlenL] at h₁
    simp only [topHatBuild]
    rw [foldl_set_range_getD, map_range_getD, getD_append, getD_append,
      getD_replicate, getD_replicate, getD_replicate]
    simp only [List.length_map, List.length_range, List.length_append,
      List.length_replicate]
    split_ifs <;> first | rfl | (exfalso; omega)

lemma topHatBuild_sum (n m : ℕ) : (topHatBuild n m).sum = 0 := by
  rw [topHatBuild_eq]
  rw [List.sum_append, List.sum_append, List.sum_replicate, List.sum_replicate]
  have hne : (2 * (m : ℚ) + 1) ≠ 0 := by positivity
  simp only [nsmul_eq_mul]
  field_simp
  ring

/-- C9: for every positive `width` and `channel_width` the top-hat kernel has
`2n` flanking entries equal to `-1` and `2m+1` central entries equal to
`k = 2n/(2m+1)` (with `n = m`), and its entries sum to exactly `0` in exact
arithmetic. -/
theorem C9_topHatFilter_zero_sum (width channel_width : ℚ)
    (hw : 0 < width) (hcw : 0 < channel_width) :
    ∃ m : ℕ, 2 ≤ m ∧
      topHatFilter width channel_width =
        List.replicate m (-1) ++
          List.replicate (2 * m + 1) ((2 * (m : ℚ)) / (2 * (m : ℚ) + 1)) ++
          List.replicate m (-1) ∧
      (topHatFilter width channel_width).sum = 0 := by
  refine ⟨(topHatM width channel_width).toNat, ?_, ?_, ?_⟩
  · have h2 : (2 : ℤ) ≤ topHatM width channel_width := le_max_right _ _
    omega
  · exact topHatBuild_eq _ _
  · exact topHatBuild_sum _ _

/-- C9 witness: the theorem applied to `width = 5`, `channel_width = 1`. -/
theorem C9_topHatFilter_zero_sum_witness :
    ((0 : ℚ) < 5 ∧ (0 : ℚ) < 1) ∧
      ∃ m : ℕ, 2 ≤ m ∧
        topHatFilter 5 1 =
          List.replicate m (-1) ++
            List.replicate (2 * m + 1) ((2 * (m : ℚ)) / (2 * (m : ℚ) + 1)) ++
            List.replicate m (-1) ∧
        (topHatFilter 5 1).sum = 0 :=
  ⟨⟨by norm_num, by norm_num⟩, C9_topHatFilter_zero_sum 5 1 (by norm_num) (by norm_num)⟩

/-! ## X-ray transition sets and the k-ratio container
(`layers_edx/xrt.py`, `layers_edx/kratio.py`)

Individual `XRayTransition` objects are compared/hashed by their
`(transition, source_shell, destination_shell)` data; they are abstracted here
as natural-number codes, and the family-normalized line weight table
(`xrt.weight("family")`, loaded from CSV data) as a function `w : ℕ → ℚ`. -/

/-- Class `XRayTransitionSet`: the element and the finite set of contained
transitions.  Its `__eq__` compares only `xrts` (see `KRatioSet.sameKey`). -/
structure XRayTransitionSet where
  element : ℕ
  xrts : Finset ℕ
deriving DecidableEq

namespace XRayTransitionSet

/-- Property `XRayTransitionSet.weightiest_transition`: scan the set, keeping
the first transition of maximal family weight, starting from `max_weight = 0`;
an empty scan result raises `ValueError`, modelled as `none`.  Python set
iteration order is unspecified; the model fixes the ascending order. -/
def weightiestStep (w : ℕ → ℚ) (result : Option ℕ) (xrt : ℕ) : Option ℕ :=
  match result with
  | none => if 0 < w xrt then some xrt else none
  | some best => if w best < w xrt then some xrt else some best

/-- Main loop of `weightiest_transition` over the set's members. -/
def weightiestTransition (w : ℕ → ℚ) (s : XRayTransitionSet) : Option ℕ :=
  (s.xrts.sort (· ≤ ·)).foldl (weightiestStep w) none

/-- Method `XRayTransitionSet.similarity`: shared family weight over total
family weight across the union of the two transition sets, `0` when the total
is not positive. -/
def similarity (w : ℕ → ℚ) (self other : XRayTransitionSet) : ℚ :=
  let total := (self.xrts ∪ other.xrts).sum w
  let score :=
    ((self.xrts ∪ other.xrts).filter
      (fun xrt => xrt ∈ self.xrts ∧ xrt ∈ other.xrts)).sum w
  if 0 < total then score / total else 0

end XRayTransitionSet

/-- Class `KRatioSet`: its `_data` dict, as the insertion-ordered association
list of `(XRayTransitionSet, kratio)` entries. -/
abbrev KRatioSet := List (XRayTransitionSet × ℚ)

namespace KRatioSet

/-- Dictionary key equality for `_data`: `XRayTransitionSet.__eq__` compares
the `xrts` sets (the element is not part of the comparison). -/
def sameKey (a b : XRayTransitionSet) : Bool := decide (a.xrts = b.xrts)

/-- Method `KRatioSet.add`: `self._data[xrt_set] = kratio` — overwrite the
value at an existing (equal) key, else append a new entry. -/
def add (ks : KRatioSet) (xrt_set : XRayTransitionSet) (kratio : ℚ) : KRatioSet :=
  if ks.any (fun e => sameKey e.1 xrt_set) then
    ks.map (fun e => if sameKey e.1 xrt_set then (e.1, kratio) else e)
  else
    ks ++ [(xrt_set, kratio)]

/-- Dictionary lookup `self._data[xrt_set]` (with `in` test): value of the
first entry whose key equals the query. -/
def lookupKey (ks : KRatioSet) (q : XRayTransitionSet) : Option ℚ :=
  match ks.find? (fun e => sameKey e.1 q) with
  | some e => some e.2
  | none => none

/-- Loop body of the fuzzy branch of `KRatioSet.find`: for a stored entry `e`
containing the query's weightiest transition `xrt`, keep the best
`(score, kratio)` seen so far, updating when `similarity > 0.8` and
`similarity > score`. -/
def findScan (w : ℕ → ℚ) (q : XRayTransitionSet) (xrt : ℕ)
    (acc : ℚ × Option ℚ) (e : XRayTransitionSet × ℚ) : ℚ × Option ℚ :=
  if xrt ∈ e.1.xrts then
    let sim := XRayTransitionSet.similarity w q e.1
    if 8 / 10 < sim ∧ acc.1 < sim then (sim, some e.2) else acc
  else acc

/-- Method `KRatioSet.find`: the stored value for an exact key; otherwise the
fuzzy lookup via the weightiest transition of the query.  The outer `Option`
models the exception channel (`none` = `ValueError` raised by
`weightiest_transition`); the inner one is the function's `Optional[float]`
return value. -/
def find (w : ℕ → ℚ) (ks : KRatioSet) (q : XRayTransitionSet) : Option (Option ℚ) :=
  match lookupKey ks q with
  | some v => some (some v)
  | none =>
    match XRayTransitionSet.weightiestTransition w q with
    | none => none
    | some xrt => some ((ks.foldl (findScan w q xrt) ((0 : ℚ), (none : Option ℚ))).2)

/-- Method `KRatioSet.kratio_from_xrt_set`:
`kratio = self.find(xrt_set); return kratio if kratio > 0.0 else 0.0`.
When `find` returns `None`, the comparison `None > 0.0` raises `TypeError`
(modelled as `none`); an exception from `find` propagates. -/
def kratio_from_xrt_set (w : ℕ → ℚ) (ks : KRatioSet) (q : XRayTransitionSet) :
    Option ℚ :=
  match find w ks q with
  | none => none
  | some none => none
  | some (some kratio) => some (if 0 < kratio then kratio else 0)

end KRatioSet

namespace XRayTransitionSet

lemma weightiestStep_isSome (w : ℕ → ℚ) (b : ℕ) (x : ℕ) :
    (weightiestStep w (some b) x).isSome = true := by
  show (if w b < w x then some x else some b).isSome = true
  split <;> rfl

lemma foldl_weightiestStep_isSome (w : ℕ → ℚ) :
    ∀ (L : List ℕ) (b : ℕ), (L.foldl (weightiestStep w) (some b)).isSome = true := by
  intro L
  induction L with
  | nil => intro b; rfl
  | cons x xs ih =>
    intro b
    rw [List.foldl_cons]
    have h := weightiestStep_isSome w b x
    obtain ⟨b', hb'⟩ := Option.isSome_iff_exists.mp h
    rw [hb']
    exact ih b'

lemma weightiestStep_cases (w : ℕ → ℚ) (acc : Option ℕ) (x : ℕ) :
    weightiestStep w acc x = acc ∨ weightiestStep w acc x = some x := by
  cases acc with
  | none =>
    show (if 0 < w x then some x else none) = none ∨
      (if 0 < w x then some x else none) = some x
    split
    · exact Or.inr rfl
    · exact Or.inl rfl
  | some b =>
    show (if w b < w x then some x else some b) = some b ∨
      (if w b < w x then some x else some b) = some x
    split
    · exact Or.inr rfl
    · exact Or.inl rfl

lemma foldl_weightiestStep_mem (w : ℕ → ℚ) :
    ∀ (L : List ℕ) (acc : Option ℕ),
      L.foldl (weightiestStep w) acc = acc ∨
        ∃ t ∈ L, L.foldl (weightiestStep w) acc = some t := by
  intro L
  induction L with
  | nil => intro acc; exact Or.inl rfl
  | cons x xs ih =>
    intro acc
    rw [List.foldl_cons]
    rcases weightiestStep_cases w acc x with h | h
    · rw [h]
      rcases ih acc with h' | ⟨t, ht, h'⟩
      · exact Or.inl h'
      · exact Or.inr ⟨t, List.mem_cons_of_mem _ ht, h'⟩
    · rw [h]
      rcases ih (some x) with h' | ⟨t, ht, h'⟩
      · exact Or.inr ⟨x, List.mem_cons_self _ _, h'⟩
      · exact Or.inr ⟨t, List.mem_cons_of_mem _ ht, h'⟩

/-- For a non-empty set whose members all have positive family weight,
`weightiest_transition` succeeds and returns a member of the set. -/
lemma weightiestTransition_spec (w : ℕ → ℚ) (s : XRayTransitionSet)
    (hne : s.xrts.Nonempty) (hpos : ∀ t ∈ s.xrts, 0 < w t) :
    ∃ t ∈ s.xrts, weightiestTransition w s = some t := by
  obtain ⟨L, hL⟩ : ∃ L, s.xrts.sort (· ≤ ·) = L := ⟨_, rfl⟩
  cases L with
  | nil =>
    exfalso
    obtain ⟨a, ha⟩ := hne
    have : a ∈ s.xrts.sort (· ≤ ·) := (Finset.mem_sort _).mpr ha
    rw [hL] at this
    exact List.not_mem_nil a this
  | cons x xs =>
    have hx : x ∈ s.xrts := by
      have : x ∈ s.xrts.sort (· ≤ ·) := by rw [hL]; exact List.mem_cons_self _ _
      exact (Finset.mem_sort _).mp this
    have hstep : weightiestStep w none x = some x := by
      unfold weightiestStep
      rw [if_pos (hpos x hx)]
    have hform : weightiestTransition w s = xs.foldl (weightiestStep w) (some x) := by
      rw [weightiestTransition, hL, List.foldl_cons, hstep]
    have hisSome : (weightiestTransition w s).isSome = true := by
      rw [hform]
      exact foldl_weightiestStep_isSome w xs x
    rcases foldl_weightiestStep_mem w xs (some x) with h | ⟨t, ht, h⟩
    · refine ⟨x, hx, ?_⟩
      rw [hform, h]
    · refine ⟨t, ?_, ?_⟩
      · have : t ∈ s.xrts.sort (· ≤ ·) := by rw [hL]; exact List.mem_cons_of_mem _ ht
        exact (Finset.mem_sort _).mp this
      · rw [hform, h]

end XRayTransitionSet

namespace KRatioSet

lemma foldl_findScan_of_no_candidate (w : ℕ → ℚ) (q : XRayTransitionSet) (xrt : ℕ) :
    ∀ (ks : KRatioSet) (acc : ℚ × Option ℚ),
      (∀ e ∈ ks, xrt ∉ e.1.xrts) → ks.foldl (findScan w q xrt) acc = acc := by
  intro ks
  induction ks with
  | nil => intro acc _; rfl
  | cons e ks ih =>
    intro acc hno
    rw [List.foldl_cons]
    have hstep : findScan w q xrt acc e = acc := by
      rw [findScan, if_neg (hno e (List.mem_cons_self _ _))]
    rw [hstep]
    exact ih acc fun e' he' => hno e' (List.mem_cons_of_mem _ he')

end KRatioSet

/-- C1: for every `KRatioSet`, `find` returns the stored value when the query
is a stored key (keys being pairwise distinct, as in a Python dict).  For a
non-empty query (of positive family weights, the invariant of sets built by
the populating constructor and `add`) that is not a stored key and shares no
transition with any stored key, `find` returns `None` — but then
`kratio_from_xrt_set` evaluates `None > 0.0`, which raises `TypeError`
(modelled as `none`) instead of returning `0` as the specification states. -/
theorem C1_find_exact_and_disjoint (w : ℕ → ℚ) (ks : KRatioSet)
    (q : XRayTransitionSet) :
    (∀ v : ℚ, ks.Pairwise (fun a b => a.1.xrts ≠ b.1.xrts) → (q, v) ∈ ks →
      KRatioSet.find w ks q = some (some v))
    ∧ (q.xrts.Nonempty → (∀ t ∈ q.xrts, 0 < w t) →
      (∀ e ∈ ks, Disjoint q.xrts e.1.xrts) →
      KRatioSet.find w ks q = some none ∧
        KRatioSet.kratio_from_xrt_set w ks q = none) := by
  constructor
  · intro v hnd hmem
    have hq : KRatioSet.sameKey (q, v).1 q = true := by
      simp [KRatioSet.sameKey]
    have hisSome : (ks.find? (fun e => KRatioSet.sameKey e.1 q)).isSome = true := by
      rw [List.find?_isSome]
      exact ⟨(q, v), hmem, hq⟩
    obtain ⟨e, he⟩ := Option.isSome_iff_exists.mp hisSome
    have hpe : KRatioSet.sameKey e.1 q = true :=
      @List.find?_some _ (fun e => KRatioSet.sameKey e.1 q) e ks he
    have hme : e ∈ ks :=
      @List.mem_of_find?_eq_some _ (fun e => KRatioSet.sameKey e.1 q) e ks he
    have hkey : e.1.xrts = q.xrts := by simpa [KRatioSet.sameKey] using hpe
    have hev : e = (q, v) := by
      by_contra hne
      have hsym : Symmetric (fun a b : XRayTransitionSet × ℚ => a.1.xrts ≠ b.1.xrts) :=
        fun a b h => h.symm
      have := hnd.forall hsym hme hmem hne
      exact this hkey
    have hlook : KRatioSet.lookupKey ks q = some v := by
      rw [KRatioSet.lookupKey, he, hev]
    simp only [KRatioSet.find, hlook]
  · intro hne hpos hdisj
    have hlook : KRatioSet.lookupKey ks q = none := by
      rw [KRatioSet.lookupKey]
      have : ks.find? (fun e => KRatioSet.sameKey e.1 q) = none := by
        rw [List.find?_eq_none]
        intro e hmem
        simp only [KRatioSet.sameKey, decide_eq_true_eq]
        intro hkey
        have hd := hdisj e hmem
        rw [hkey] at hd
        obtain ⟨a, ha⟩ := hne
        exact (Finset.disjoint_left.mp hd ha) ha
      rw [this]
    obtain ⟨t, ht, hwt⟩ := XRayTransitionSet.weightiestTransition_spec w q hne hpos
    have hscan :
        (ks.foldl (KRatioSet.findScan w q t) ((0 : ℚ), (none : Option ℚ))).2 = none := by
      rw [KRatioSet.foldl_findScan_of_no_candidate]
      intro e hmem
      exact Finset.disjoint_left.mp (hdisj e hmem) ht
    have hfind : KRatioSet.find w ks q = some none := by
      simp only [KRatioSet.find, hlook, hwt, hscan]
    refine ⟨hfind, ?_⟩
    simp only [KRatioSet.kratio_from_xrt_set, hfind]

/-- C1 witness: both parts of the theorem at concrete data — an exact-key hit
returning the stored value, and a disjoint query on which `find` returns
`None` and `kratio_from_xrt_set` raises. -/
theorem C1_find_exact_and_disjoint_witness :
    (KRatioSet.find (fun _ => 1) [(⟨1, {5}⟩, 3)] ⟨1, {5}⟩ = some (some 3)) ∧
      (KRatioSet.find (fun _ => 1) [(⟨1, {5}⟩, 3)] ⟨2, {7}⟩ = some none ∧
        KRatioSet.kratio_from_xrt_set (fun _ => 1) [(⟨1, {5}⟩, 3)] ⟨2, {7}⟩ = none) :=
  ⟨(C1_find_exact_and_disjoint (fun _ => 1) [(⟨1, {5}⟩, 3)] ⟨1, {5}⟩).1 3
      (by simp) (by simp),
    (C1_find_exact_and_disjoint (fun _ => 1) [(⟨1, {5}⟩, 3)] ⟨2, {7}⟩).2
      (by simp) (fun t _ => by norm_num) (by intro e he; simp at he; simp [he])⟩

/-! ## The iterative linear-fit loop (`layers_edx/fitting/linear_fit.py`)

`LinearFit.get_k_ratios` for a fixed `unknown`.  The `n` parameters are
identified by their index; `elem i` is `parameters[i].element` and `xrtSet i`
is `parameters[i].xrt_set`.  The composite
`np.linalg.lstsq(*self.features_and_targets(unknown, selected))` is abstracted
as a function `solve` of the selected parameter list (both concrete
`features_and_targets` implementations, `FilterFit` and `ModelFit`, depend
only on the immutable payload of the selected parameters), returning one
coefficient per selected parameter.  `culling_strategy.compute(parameters,
fit_params)` is abstracted as a function `cull` of the parameters' current
kratios and of the fit-parameter vector (a `culling_strategy` of `None`
corresponds to `cull = fun _ _ => ∅`). -/

structure LinearFitModel (n : ℕ) where
  elem : Fin n → ℕ
  xrtSet : Fin n → XRayTransitionSet
  solve : List (Fin n) → List ℚ
  cull : (Fin n → ℚ) → (Fin n → ℚ) → Finset ℕ

/-- Mutable state of one pass of the `while repeat` loop: the parameters'
`kratio` fields, the `zero_fit_params` mask, and the `remove`/`removed`
element sets. -/
structure FitState (n : ℕ) where
  kratio : Fin n → ℚ
  zero : Fin n → Bool
  remove : Finset ℕ
  removed : Finset ℕ

namespace LinearFit

variable {n : ℕ}

/-- The `zero_fit_params` mask right after the head of a pass, which first
folds `remove` into `removed` and then sets `zero_fit_params[i] = True` for
every parameter whose element is removed. -/
def headMask (M : LinearFitModel n) (s : FitState n) : Fin n → Bool :=
  fun i => s.zero i || decide (M.elem i ∈ s.removed ∪ s.remove)

/-- The `selected` list of a pass: parameters that are not masked, in index
order. -/
def selectedOf (M : LinearFitModel n) (s : FitState n) : List (Fin n) :=
  (List.finRange n).filter (fun i => ! headMask M s i)

/-- The `fit_params` vector of a pass: `fit_params = np.zeros(...)`, then
`fit_params[~zero_fit_params] = fit[0].flatten()` — the solved coefficients
scattered back to the unmasked positions in increasing index order. -/
def fitParamsOf (M : LinearFitModel n) (s : FitState n) : Fin n → ℚ :=
  fun i =>
    if headMask M s i then 0
    else (M.solve (selectedOf M s)).getD ((selectedOf M s).indexOf i) 0

/-- The parameters' `kratio` fields right after the clamping loop of a pass:
active parameters get their solved coefficient, clamped to `0` when negative
(masked parameters keep their previous value). -/
def kratioMidOf (M : LinearFitModel n) (s : FitState n) : Fin n → ℚ :=
  fun i =>
    if headMask M s i then s.kratio i
    else if fitParamsOf M s i < 0 then 0 else fitParamsOf M s i

/-- Whether the clamping loop of a pass set `repeat = True`: some active
parameter solved negative. -/
def repeatAOf (M : LinearFitModel n) (s : FitState n) : Bool :=
  decide (∃ i, headMask M s i = false ∧ fitParamsOf M s i < 0)

/-- The `cull_these` set of a pass (the culling strategy sees the parameters
after the clamping loop, and the raw `fit_params` vector). -/
def cullOf (M : LinearFitModel n) (s : FitState n) : Finset ℕ :=
  M.cull (kratioMidOf M s) (fitParamsOf M s)

/-- One pass of the `while repeat` loop of `get_k_ratios`, returning the new
state and the `repeat` flag. -/
def stepPass (M : LinearFitModel n) (s : FitState n) : FitState n × Bool :=
  (⟨fun i =>
      if M.elem i ∈ cullOf M s ∪ (s.removed ∪ s.remove) then 0
      else kratioMidOf M s i,
    fun i => headMask M s i || decide (fitParamsOf M s i < 0),
    cullOf M s,
    s.removed ∪ s.remove⟩,
    repeatAOf M s || decide ((cullOf M s \ (s.removed ∪ s.remove)).Nonempty))

/-- The `while repeat` loop, fuel-indexed: `none` means the fuel was exhausted
before the loop finished, i.e. the loop needs more than `fuel` passes. -/
def runLoop (M : LinearFitModel n) : ℕ → FitState n → Option (FitState n)
  | 0, _ => none
  | fuel + 1, s =>
    match stepPass M s with
    | (s', true) => runLoop M fuel s'
    | (s', false) => some s'

/-- State at the entry of `get_k_ratios`: every parameter's kratio is reset to
`0.0` (`for p in self.parameters: p.kratio = 0.0`), fresh mask and removal
sets.  The parameters' kratio values before the call, `kratio0`, are
discarded by this reset. -/
def initState (n : ℕ) (kratio0 : Fin n → ℚ) : FitState n :=
  { kratio := fun _ => 0
    zero := fun _ => false
    remove := ∅
    removed := ∅ }

/-- The state in which the loop of `get_k_ratios` ends.  The fuel `n + 2` is
proved sufficient below, so the `getD` default is never taken. -/
def finalState (M : LinearFitModel n) (kratio0 : Fin n → ℚ) : FitState n :=
  (runLoop M (n + 2) (initState n kratio0)).getD (initState n kratio0)

/-- Method `LinearFit.get_k_ratios`: run the loop, then
`result.add(p.xrt_set, p.kratio)` for each parameter in order. -/
def get_k_ratios (M : LinearFitModel n) (kratio0 : Fin n → ℚ) : KRatioSet :=
  (List.finRange n).foldl
    (fun ks i => KRatioSet.add ks (M.xrtSet i) ((finalState M kratio0).kratio i)) []

/-- The elements represented among the parameters
(`LinearFit.elements`). -/
def paramElems (M : LinearFitModel n) : Finset ℕ :=
  Finset.univ.image M.elem

/-- Loop invariant: masked or removed parameters have kratio `0`, and all
kratios are non-negative. -/
def StInv (M : LinearFitModel n) (s : FitState n) : Prop :=
  (∀ i, s.zero i = true → s.kratio i = 0) ∧
    (∀ i, M.elem i ∈ s.removed ∪ s.remove → s.kratio i = 0) ∧
    (∀ i, 0 ≤ s.kratio i)

/-- Formalization of "an adversarial culling strategy that always removes
exactly one more parameter per call": at any pass state, the culling result
contributes exactly one new element carrying parameters while any remain, and
nothing new afterwards. -/
def OneMorePerCall (M : LinearFitModel n) : Prop :=
  ∀ s : FitState n,
    (∃ e ∈ paramElems M, e ∉ s.removed ∪ s.remove ∧
      cullOf M s \ (s.removed ∪ s.remove) = {e})
    ∨ (paramElems M ⊆ s.removed ∪ s.remove ∧
      cullOf M s ⊆ s.removed ∪ s.remove)

lemma stepPass_removed (M : LinearFitModel n) (s : FitState n) :
    ((stepPass M s).1).removed = s.removed ∪ s.remove := rfl

lemma stepPass_remove (M : LinearFitModel n) (s : FitState n) :
    ((stepPass M s).1).remove = cullOf M s := rfl

lemma stepPass_zero (M : LinearFitModel n) (s : FitState n) (i : Fin n) :
    ((stepPass M s).1).zero i =
      (headMask M s i || decide (fitParamsOf M s i < 0)) := rfl

lemma stepPass_kratio (M : LinearFitModel n) (s : FitState n) (i : Fin n) :
    ((stepPass M s).1).kratio i =
      (if M.elem i ∈ cullOf M s ∪ (s.removed ∪ s.remove) then 0
        else kratioMidOf M s i) := rfl

lemma stepPass_snd (M : LinearFitModel n) (s : FitState n) :
    (stepPass M s).2 =
      (repeatAOf M s || decide ((cullOf M s \ (s.removed ∪ s.remove)).Nonempty)) := rfl

lemma headMask_true_kratio_eq_zero {M : LinearFitModel n} {s : FitState n}
    (hInv : StInv M s) {i : Fin n} (hm : headMask M s i = true) :
    s.kratio i = 0 := by
  rw [headMask, Bool.or_eq_true, decide_eq_true_eq] at hm
  rcases hm with hm | hm
  · exact hInv.1 i hm
  · exact hInv.2.1 i hm

/-- Invariant preservation through one pass. -/
lemma stInv_step (M : LinearFitModel n) (s : FitState n) (hInv : StInv M s) :
    StInv M (stepPass M s).1 := by
  obtain ⟨h1, h2, h3⟩ := hInv
  refine ⟨?_, ?_, ?_⟩
  · intro i hz
    rw [stepPass_kratio]
    by_cases hmem : M.elem i ∈ cullOf M s ∪ (s.removed ∪ s.remove)
    · rw [if_pos hmem]
    · rw [if_neg hmem]
      rw [stepPass_zero, Bool.or_eq_true] at hz
      rcases hz with hz | hz
      · rw [kratioMidOf, if_pos hz]
        exact headMask_true_kratio_eq_zero ⟨h1, h2, h3⟩ hz
      · rw [decide_eq_true_eq] at hz
        rw [kratioMidOf]
        by_cases hm : headMask M s i = true
        · rw [if_pos hm]
          exact headMask_true_kratio_eq_zero ⟨h1, h2, h3⟩ hm
        · rw [if_neg hm, if_pos hz]
  · intro i hmem
    rw [stepPass_removed, stepPass_remove] at hmem
    rw [stepPass_kratio, if_pos]
    rw [Finset.mem_union] at hmem ⊢
    tauto
  · intro i
    rw [stepPass_kratio]
    by_cases hmem : M.elem i ∈ cullOf M s ∪ (s.removed ∪ s.remove)
    · rw [if_pos hmem]
    · rw [if_neg hmem, kratioMidOf]
      by_cases hm : headMask M s i = true
      · rw [if_pos hm]
        exact h3 i
      · rw [if_neg hm]
        by_cases hf : fitParamsOf M s i < 0
        · rw [if_pos hf]
        · rw [if_neg hf]
          exact le_of_not_lt hf

lemma stInv_init (M : LinearFitModel n) (kratio0 : Fin n → ℚ) :
    StInv M (initState n kratio0) := by
  refine ⟨fun i h => rfl, fun i h => rfl, fun i => le_refl 0⟩

lemma runLoop_succ (M : LinearFitModel n) (fuel : ℕ) (s : FitState n) :
    runLoop M (fuel + 1) s =
      if (stepPass M s).2 then runLoop M fuel (stepPass M s).1
      else some (stepPass M s).1 := by
  rw [runLoop]
  rcases hstep : stepPass M s with ⟨s₁, rep⟩
  cases rep
  · simp
  · simp

lemma stInv_runLoop (M : LinearFitModel n) :
    ∀ (fuel : ℕ) (s s' : FitState n), StInv M s →
      runLoop M fuel s = some s' → StInv M s' := by
  intro fuel
  induction fuel with
  | zero => intro s s' _ h; exact absurd h (by rw [runLoop]; simp)
  | succ fuel ih =>
    intro s s' hInv h
    rw [runLoop_succ] at h
    by_cases hrep : (stepPass M s).2 = true
    · rw [if_pos hrep] at h
      exact ih _ s' (stInv_step M s hInv) h
    · rw [if_neg hrep] at h
      rw [Option.some_inj] at h
      rw [← h]
      exact stInv_step M s hInv

lemma stInv_finalState (M : LinearFitModel n) (kratio0 : Fin n → ℚ) :
    StInv M (finalState M kratio0) := by
  rw [finalState]
  rcases h : runLoop M (n + 2) (initState n kratio0) with _ | s'
  · simpa using stInv_init M kratio0
  · simpa using stInv_runLoop M (n + 2) _ s' (stInv_init M kratio0) h

lemma runLoop_mono (M : LinearFitModel n) :
    ∀ (f₁ f₂ : ℕ) (s : FitState n), f₁ ≤ f₂ →
      (runLoop M f₁ s).isSome = true → (runLoop M f₂ s).isSome = true := by
  intro f₁
  induction f₁ with
  | zero => intro f₂ s _ h; exact absurd h (by rw [runLoop]; simp)
  | succ f₁ ih =>
    intro f₂ s hle h
    obtain ⟨f₂', rfl⟩ : ∃ f₂', f₂ = f₂' + 1 := ⟨f₂ - 1, by omega⟩
    rw [runLoop_succ] at h ⊢
    by_cases hrep : (stepPass M s).2 = true
    · rw [if_pos hrep] at h ⊢
      exact ih f₂' _ (by omega) h
    · rw [if_neg hrep] at h ⊢
      exact h

lemma headMask_step_mono (M : LinearFitModel n) (s : FitState n) (i : Fin n)
    (h : headMask M s i = true) : headMask M (stepPass M s).1 i = true := by
  rw [headMask, stepPass_zero, stepPass_removed, stepPass_remove, h]
  rfl

/-- A pass whose head mask does not change leaves nothing to do: the next pass
re-solves the same selection, finds no new clamp and re-culls the same set,
which is already removed, so its `repeat` flag is `false`. -/
lemma stepPass_stuck (M : LinearFitModel n) (s : FitState n) (hInv : StInv M s)
    (hmask : ∀ i, headMask M (stepPass M s).1 i = headMask M s i) :
    (stepPass M (stepPass M s).1).2 = false := by
  set s' := (stepPass M s).1 with hs'
  have hnoclamp : ∀ i, headMask M s i = false → ¬ fitParamsOf M s i < 0 := by
    intro i hm hlt
    have hmt : headMask M s' i = true := by
      rw [headMask, stepPass_zero, Bool.or_eq_true]
      refine Or.inl ?_
      rw [Bool.or_eq_true]
      exact Or.inr (decide_eq_true hlt)
    rw [hmask i, hm] at hmt
    exact Bool.false_ne_true hmt
  have hsel : selectedOf M s' = selectedOf M s := by
    rw [selectedOf, selectedOf]
    congr 1
    funext i
    rw [hmask i]
  have hfit : fitParamsOf M s' = fitParamsOf M s := by
    funext i
    rw [fitParamsOf, fitParamsOf, hsel, hmask i]
  have hmid : kratioMidOf M s' = kratioMidOf M s := by
    funext i
    rw [kratioMidOf, kratioMidOf, hfit, hmask i]
    by_cases hm : headMask M s i = true
    · rw [if_pos hm, if_pos hm]
      have hs0 : s.kratio i = 0 := headMask_true_kratio_eq_zero hInv hm
      have hs'0 : s'.kratio i = 0 := by
        rw [hs', stepPass_kratio]
        by_cases hmem : M.elem i ∈ cullOf M s ∪ (s.removed ∪ s.remove)
        · rw [if_pos hmem]
        · rw [if_neg hmem, kratioMidOf, if_pos hm, hs0]
      rw [hs'0, hs0]
    · rw [if_neg hm, if_neg hm]
  have hcull : cullOf M s' = cullOf M s := by
    rw [cullOf, cullOf, hmid, hfit]
  rw [stepPass_snd, Bool.or_eq_false_iff]
  constructor
  · rw [repeatAOf, decide_eq_false_iff_not]
    rintro ⟨i, him, hlt⟩
    rw [hmask i] at him
    rw [hfit] at hlt
    exact hnoclamp i him hlt
  · rw [decide_eq_false_iff_not]
    rw [hcull]
    have hsub : cullOf M s ⊆ s'.removed ∪ s'.remove := by
      rw [hs', stepPass_removed, stepPass_remove]
      exact Finset.subset_union_right
    rw [Finset.sdiff_eq_empty_iff_subset.mpr hsub]
    exact Finset.not_nonempty_empty

/-- Number of parameters masked at the head of a pass. -/
def maskCount (M : LinearFitModel n) (s : FitState n) : ℕ :=
  (Finset.univ.filter (fun i => headMask M s i = true)).card

lemma maskCount_lt_of_change (M : LinearFitModel n) (s : FitState n)
    (hch : ¬ ∀ i, headMask M (stepPass M s).1 i = headMask M s i) :
    maskCount M s < maskCount M (stepPass M s).1 := by
  obtain ⟨i, hne⟩ := not_forall.mp hch
  have hsi : headMask M s i = false := by
    cases hb : headMask M s i with
    | false => rfl
    | true => exact absurd (by rw [headMask_step_mono M s i hb, hb]) hne
  have hsi' : headMask M (stepPass M s).1 i = true := by
    cases hb : headMask M (stepPass M s).1 i with
    | false => exact absurd (by rw [hb, hsi]) hne
    | true => rfl
  apply Finset.card_lt_card
  constructor
  · intro j hj
    rw [Finset.mem_filter] at hj ⊢
    exact ⟨hj.1, headMask_step_mono M s j hj.2⟩
  · intro hsub
    have hmem := hsub (Finset.mem_filter.mpr ⟨Finset.mem_univ i, hsi'⟩)
    rw [Finset.mem_filter] at hmem
    rw [hmem.2] at hsi
    simp at hsi

lemma runLoop_two_of_stuck (M : LinearFitModel n) (s : FitState n) (f : ℕ)
    (hrep : (stepPass M s).2 = true)
    (hstuck : (stepPass M (stepPass M s).1).2 = false) :
    (runLoop M (f + 2) s).isSome = true := by
  rw [runLoop_succ, if_pos hrep]
  rw [runLoop_succ, if_neg (by rw [hstuck]; exact Bool.false_ne_true)]
  rfl

lemma runLoop_from_inv (M : LinearFitModel n) :
    ∀ (k : ℕ) (s : FitState n), StInv M s → n - maskCount M s ≤ k →
      (runLoop M (k + 2) s).isSome = true := by
  intro k
  induction k with
  | zero =>
    intro s hInv hμ
    by_cases hrep : (stepPass M s).2 = true
    · have hall : ∀ i, headMask M s i = true := by
        intro i
        by_contra hmi
        have hin : i ∉ Finset.univ.filter (fun j => headMask M s j = true) := by
          rw [Finset.mem_filter]
          tauto
        have hlt : maskCount M s < n := by
          rw [maskCount]
          calc (Finset.univ.filter (fun j => headMask M s j = true)).card
              < Finset.univ.card := Finset.card_lt_card
                ⟨Finset.filter_subset _ _, fun hsub => hin (hsub (Finset.mem_univ i))⟩
            _ = n := Finset.card_univ.trans (Fintype.card_fin n)
        omega
      have hch : ∀ i, headMask M (stepPass M s).1 i = headMask M s i := by
        intro i
        rw [hall i]
        exact headMask_step_mono M s i (hall i)
      exact runLoop_two_of_stuck M s 0 hrep (stepPass_stuck M s hInv hch)
    · rw [runLoop_succ, if_neg hrep]
      rfl
  | succ k ih =>
    intro s hInv hμ
    by_cases hrep : (stepPass M s).2 = true
    · by_cases hch : ∀ i, headMask M (stepPass M s).1 i = headMask M s i
      · exact runLoop_two_of_stuck M s (k + 1) hrep (stepPass_stuck M s hInv hch)
      · have hlt := maskCount_lt_of_change M s hch
        have hμ' : n - maskCount M (stepPass M s).1 ≤ k := by omega
        have htail := ih (stepPass M s).1 (stInv_step M s hInv) hμ'
        have : (k + 1) + 2 = (k + 2) + 1 := by omega
        rw [this, runLoop_succ, if_pos hrep]
        exact htail
    · rw [runLoop_succ, if_neg hrep]
      rfl

lemma repeatA_false_of_all_removed (M : LinearFitModel n) (s : FitState n)
    (h : paramElems M ⊆ s.removed ∪ s.remove) : repeatAOf M s = false := by
  rw [repeatAOf, decide_eq_false_iff_not]
  rintro ⟨i, him, _⟩
  have helem : M.elem i ∈ paramElems M :=
    Finset.mem_image.mpr ⟨i, Finset.mem_univ i, rfl⟩
  have : headMask M s i = true := by
    rw [headMask, Bool.or_eq_true]
    exact Or.inr (decide_eq_true (h helem))
  rw [him] at this
  exact Bool.false_ne_true this

lemma stepPass_false_of_all_removed (M : LinearFitModel n) (s : FitState n)
    (h1 : paramElems M ⊆ s.removed ∪ s.remove)
    (h2 : cullOf M s ⊆ s.removed ∪ s.remove) : (stepPass M s).2 = false := by
  rw [stepPass_snd, repeatA_false_of_all_removed M s h1, Bool.false_or,
    decide_eq_false_iff_not]
  rw [Finset.sdiff_eq_empty_iff_subset.mpr h2]
  exact Finset.not_nonempty_empty

/-- Under the one-more-per-call culling strategy the loop finishes within one
pass more than the number of still-unremoved parameter elements. -/
lemma runLoop_oneMore (M : LinearFitModel n) (hadv : OneMorePerCall M) :
    ∀ (k : ℕ) (s : FitState n),
      (paramElems M \ (s.removed ∪ s.remove)).card ≤ k →
      (runLoop M (k + 1) s).isSome = true := by
  intro k
  induction k with
  | zero =>
    intro s hcard
    have hempty : paramElems M \ (s.removed ∪ s.remove) = ∅ :=
      Finset.card_eq_zero.mp (by omega)
    have hsub : paramElems M ⊆ s.removed ∪ s.remove :=
      Finset.sdiff_eq_empty_iff_subset.mp hempty
    rcases hadv s with ⟨e, he, hnot, _⟩ | ⟨_, hcull⟩
    · exact absurd (hsub he) hnot
    · rw [runLoop_succ, if_neg (by
        rw [stepPass_false_of_all_removed M s hsub hcull]
        exact Bool.false_ne_true)]
      rfl
  | succ k ih =>
    intro s hcard
    rcases hadv s with ⟨e, he, hnot, hcull⟩ | ⟨hsub, hcull⟩
    · have hrep : (stepPass M s).2 = true := by
        rw [stepPass_snd, Bool.or_eq_true]
        refine Or.inr (decide_eq_true ?_)
        rw [hcull]
        exact ⟨e, Finset.mem_singleton_self e⟩
      rw [runLoop_succ, if_pos hrep]
      refine ih (stepPass M s).1 ?_
      have hein : e ∈ (stepPass M s).1.removed ∪ (stepPass M s).1.remove := by
        rw [stepPass_removed, stepPass_remove, Finset.mem_union]
        refine Or.inr ?_
        have := hcull ▸ Finset.mem_singleton_self e
        exact (Finset.mem_sdiff.mp this).1
      have hssub : paramElems M \ ((stepPass M s).1.removed ∪ (stepPass M s).1.remove)
          ⊂ paramElems M \ (s.removed ∪ s.remove) := by
        constructor
        · intro x hx
          rw [Finset.mem_sdiff] at hx ⊢
          refine ⟨hx.1, fun hmem => hx.2 ?_⟩
          rw [stepPass_removed, stepPass_remove, Finset.mem_union, Finset.mem_union]
          rw [Finset.mem_union] at hmem
          tauto
        · intro habs
          have := habs (Finset.mem_sdiff.mpr ⟨he, hnot⟩)
          rw [Finset.mem_sdiff] at this
          exact this.2 hein
      have := Finset.card_lt_card hssub
      omega
    · rw [runLoop_succ, if_neg (by
        rw [stepPass_false_of_all_removed M s hsub hcull]
        exact Bool.false_ne_true)]
      rfl

end LinearFit

/-- C2 (amended): for every list of `N` parameters and every culling strategy,
`LinearFit.get_k_ratios` terminates: the masked set and the removed set only
grow from pass to pass, and the solve loop executes at most `N + 2` passes
(the original claim's `N + 1` is not enough — see the counterexample — because
one extra pass can be spent culling an element all of whose parameters are
already masked); for an adversarial culling strategy that always removes
exactly one more parameter per call, it terminates within `N + 1`
iterations. -/
theorem C2_get_k_ratios_terminates (n : ℕ) (M : LinearFitModel n) :
    (∀ s : FitState n,
      (∀ i, s.zero i = true → (LinearFit.stepPass M s).1.zero i = true) ∧
        s.removed ⊆ (LinearFit.stepPass M s).1.removed)
    ∧ (∀ kratio0 : Fin n → ℚ,
        (LinearFit.runLoop M (n + 2) (LinearFit.initState n kratio0)).isSome = true)
    ∧ (∀ kratio0 : Fin n → ℚ, LinearFit.OneMorePerCall M →
        (LinearFit.runLoop M (n + 1) (LinearFit.initState n kratio0)).isSome = true) := by
  refine ⟨?_, ?_, ?_⟩
  · intro s
    constructor
    · intro i hz
      rw [LinearFit.stepPass_zero, Bool.or_eq_true]
      refine Or.inl ?_
      rw [LinearFit.headMask, Bool.or_eq_true]
      exact Or.inl hz
    · rw [LinearFit.stepPass_removed]
      exact Finset.subset_union_left
  · intro kratio0
    exact LinearFit.runLoop_from_inv M n _ (LinearFit.stInv_init M kratio0)
      (by omega)
  · intro kratio0 hadv
    refine LinearFit.runLoop_oneMore M hadv n _ ?_
    have h1 : (LinearFit.paramElems M).card ≤ n := by
      calc (LinearFit.paramElems M).card ≤ Finset.univ.card := Finset.card_image_le
        _ = n := Finset.card_univ.trans (Fintype.card_fin n)
    calc (LinearFit.paramElems M \ (∅ ∪ ∅)).card
        ≤ (LinearFit.paramElems M).card := Finset.card_le_card (Finset.sdiff_subset)
      _ ≤ n := h1

/-- Culling strategy and solver exhibiting a run of `N + 2 = 3` passes for a
single parameter: the first pass clamps the parameter, the second culls its
element (already fully masked), the third finds nothing new.  `fit_params`
distinguishes the passes, so the strategy is a plain function of its
arguments. -/
def cexModel : LinearFitModel 1 where
  elem := fun _ => 7
  xrtSet := fun _ => ⟨7, ∅⟩
  solve := fun sel => if sel.length = 1 then [-1] else []
  cull := fun _ fp => if fp 0 < 0 then ∅ else {7}

/-- C2 counterexample: for `N = 1` parameters there is a culling strategy on
which the loop is still running after `N + 1 = 2` passes. -/
theorem C2_counterexample :
    (LinearFit.runLoop cexModel (1 + 1) (LinearFit.initState 1 fun _ => 0)).isNone
      = true := by decide

/-- Culling strategy removing the (single) parameter's element on every call:
the run lasts exactly `N + 1 = 2` passes. -/
def advModel : LinearFitModel 1 where
  elem := fun _ => 5
  xrtSet := fun _ => ⟨5, ∅⟩
  solve := fun _ => [1]
  cull := fun _ _ => {5}

lemma advModel_oneMore : LinearFit.OneMorePerCall advModel := by
  intro s
  by_cases h : 5 ∈ s.removed ∪ s.remove
  · refine Or.inr ⟨?_, ?_⟩
    · intro e he
      have : e = 5 := by
        simpa [LinearFit.paramElems, cexModel, advModel] using he
      rw [this]
      exact h
    · intro e he
      have : e = 5 := by
        simpa [LinearFit.cullOf, advModel] using he
      rw [this]
      exact h
  · refine Or.inl ⟨5, ?_, h, ?_⟩
    · simp [LinearFit.paramElems, advModel]
    · ext e
      simp only [LinearFit.cullOf, advModel, Finset.mem_sdiff, Finset.mem_singleton]
      constructor
      · rintro ⟨he, _⟩
        exact he
      · rintro rfl
        exact ⟨rfl, h⟩

/-- C2 witness: the amended theorem's one-more-per-call bound at the concrete
single-parameter model. -/
theorem C2_get_k_ratios_terminates_witness :
    LinearFit.OneMorePerCall advModel ∧
      (LinearFit.runLoop advModel (1 + 1) (LinearFit.initState 1 fun _ => 0)).isSome
        = true :=
  ⟨advModel_oneMore,
    (C2_get_k_ratios_terminates 1 advModel).2.2 (fun _ => 0) advModel_oneMore⟩

namespace KRatioSet

lemma add_of_fresh (ks : KRatioSet) (key : XRayTransitionSet) (k : ℚ)
    (h : ∀ e ∈ ks, e.1.xrts ≠ key.xrts) : add ks key k = ks ++ [(key, k)] := by
  rw [add, if_neg]
  intro hany
  rw [List.any_eq_true] at hany
  obtain ⟨e, hmem, he⟩ := hany
  rw [sameKey, decide_eq_true_eq] at he
  exact h e hmem he

lemma lookupKey_cons (e : XRayTransitionSet × ℚ) (ks : KRatioSet)
    (q : XRayTransitionSet) :
    lookupKey (e :: ks) q =
      if e.1.xrts = q.xrts then some e.2 else lookupKey ks q := by
  rw [lookupKey, List.find?_cons]
  by_cases h : e.1.xrts = q.xrts
  · have hsk : sameKey e.1 q = true := by rw [sameKey, decide_eq_true_eq]; exact h
    simp only [hsk]
    rw [if_pos h]
  · have hsk : sameKey e.1 q = false := by rw [sameKey]; exact decide_eq_false h
    simp only [hsk]
    rw [if_neg h, lookupKey]

end KRatioSet

namespace LinearFit

/-- Folding `KRatioSet.add` over parameters with pairwise distinct (and fresh)
transition-set keys appends one entry per parameter. -/
lemma foldl_add_eq_append (f : Fin n → XRayTransitionSet) (g : Fin n → ℚ) :
    ∀ (L : List (Fin n)) (ks₀ : KRatioSet), L.Nodup →
      (∀ i ∈ L, ∀ j ∈ L, i ≠ j → (f i).xrts ≠ (f j).xrts) →
      (∀ i ∈ L, ∀ e ∈ ks₀, e.1.xrts ≠ (f i).xrts) →
      L.foldl (fun ks i => KRatioSet.add ks (f i) (g i)) ks₀ =
        ks₀ ++ L.map (fun i => (f i, g i)) := by
  intro L
  induction L with
  | nil => intro ks₀ _ _ _; simp
  | cons i L ih =>
    intro ks₀ hnd hdist hfresh
    rw [List.foldl_cons,
      KRatioSet.add_of_fresh ks₀ (f i) (g i)
        (fun e he => hfresh i (List.mem_cons_self _ _) e he)]
    rw [ih (ks₀ ++ [(f i, g i)]) (List.nodup_cons.mp hnd).2 ?hd ?hf]
    · rw [List.map_cons, List.append_assoc]
      rfl
    case hd =>
      intro a ha b hb hab
      exact hdist a (List.mem_cons_of_mem _ ha) b (List.mem_cons_of_mem _ hb) hab
    case hf =>
      intro a ha e he
      rcases List.mem_append.mp he with he | he
      · exact hfresh a (List.mem_cons_of_mem _ ha) e he
      · rcases List.mem_singleton.mp he with rfl
        have hia : i ≠ a := by
          rintro rfl
          exact (List.nodup_cons.mp hnd).1 ha
        exact hdist i (List.mem_cons_self _ _) a (List.mem_cons_of_mem _ ha) hia

lemma lookupKey_map_of_distinct (f : Fin n → XRayTransitionSet) (g : Fin n → ℚ) :
    ∀ (L : List (Fin n)),
      (∀ a ∈ L, ∀ b ∈ L, a ≠ b → (f a).xrts ≠ (f b).xrts) →
      ∀ i ∈ L,
        KRatioSet.lookupKey (L.map (fun j => (f j, g j))) (f i) = some (g i) := by
  intro L
  induction L with
  | nil => intro _ i hi; exact absurd hi (List.not_mem_nil i)
  | cons j L ih =>
    intro hdist i hi
    rw [List.map_cons, KRatioSet.lookupKey_cons]
    by_cases hji : (f j).xrts = (f i).xrts
    · rw [if_pos hji]
      have hj_eq_i : g j = g i := by
        rcases List.mem_cons.mp hi with rfl | hi'
        · rfl
        · by_cases hij : j = i
          · rw [hij]
          · exact absurd hji
              (hdist j (List.mem_cons_self _ _) i (List.mem_cons_of_mem _ hi') hij)
      rw [hj_eq_i]
    · rw [if_neg hji]
      have hi' : i ∈ L := by
        rcases List.mem_cons.mp hi with rfl | hi'
        · exact absurd rfl hji
        · exact hi'
      exact ih
        (fun a ha b hb hab =>
          hdist a (List.mem_cons_of_mem _ ha) b (List.mem_cons_of_mem _ hb) hab)
        i hi'

end LinearFit

/-- C3: for every input and every culling strategy (with, as in the data
model, one reference per parameter so transition-set keys are pairwise
distinct), the `KRatioSet` returned by `get_k_ratios` has an entry keyed by
each parameter's transition set holding its final k-ratio, every stored value
is non-negative, and parameters that end masked (negative-clamped) or with a
culled element have an explicit zero entry. -/
theorem C3_get_k_ratios_result (n : ℕ) (M : LinearFitModel n)
    (kratio0 : Fin n → ℚ)
    (hdist : ∀ i j : Fin n, i ≠ j → (M.xrtSet i).xrts ≠ (M.xrtSet j).xrts) :
    (∀ i : Fin n,
      KRatioSet.lookupKey (LinearFit.get_k_ratios M kratio0) (M.xrtSet i) =
        some ((LinearFit.finalState M kratio0).kratio i))
    ∧ (∀ e ∈ LinearFit.get_k_ratios M kratio0, 0 ≤ e.2)
    ∧ (∀ i : Fin n,
        (LinearFit.finalState M kratio0).zero i = true ∨
          M.elem i ∈ (LinearFit.finalState M kratio0).removed ∪
            (LinearFit.finalState M kratio0).remove →
        KRatioSet.lookupKey (LinearFit.get_k_ratios M kratio0) (M.xrtSet i) =
          some 0) := by
  have hdist' : ∀ a ∈ List.finRange n, ∀ b ∈ List.finRange n, a ≠ b →
      (M.xrtSet a).xrts ≠ (M.xrtSet b).xrts :=
    fun a _ b _ hab => hdist a b hab
  have hform : LinearFit.get_k_ratios M kratio0 =
      (List.finRange n).map
        (fun i => (M.xrtSet i, (LinearFit.finalState M kratio0).kratio i)) := by
    rw [LinearFit.get_k_ratios,
      LinearFit.foldl_add_eq_append _ _ (List.finRange n) []
        (List.nodup_finRange n) hdist' (fun i _ e he => absurd he (List.not_mem_nil e))]
    rfl
  have hInv := LinearFit.stInv_finalState M kratio0
  have hlook : ∀ i : Fin n,
      KRatioSet.lookupKey (LinearFit.get_k_ratios M kratio0) (M.xrtSet i) =
        some ((LinearFit.finalState M kratio0).kratio i) := by
    intro i
    rw [hform]
    exact LinearFit.lookupKey_map_of_distinct _ _ (List.finRange n) hdist' i
      (List.mem_finRange i)
  refine ⟨hlook, ?_, ?_⟩
  · intro e he
    rw [hform] at he
    obtain ⟨i, _, rfl⟩ := List.mem_map.mp he
    exact hInv.2.2 i
  · intro i hmask
    rw [hlook i]
    rcases hmask with hz | hr
    · rw [hInv.1 i hz]
    · rw [hInv.2.1 i hr]

/-- C3 witness: the theorem at the concrete single-parameter model (key
distinctness is vacuous for one parameter). -/
theorem C3_get_k_ratios_result_witness :
    (∀ i j : Fin 1, i ≠ j → (advModel.xrtSet i).xrts ≠ (advModel.xrtSet j).xrts) ∧
      ((∀ i : Fin 1,
        KRatioSet.lookupKey (LinearFit.get_k_ratios advModel fun _ => 0)
            (advModel.xrtSet i) =
          some ((LinearFit.finalState advModel fun _ => 0).kratio i))
      ∧ (∀ e ∈ LinearFit.get_k_ratios advModel fun _ => 0, 0 ≤ e.2)
      ∧ (∀ i : Fin 1,
          (LinearFit.finalState advModel fun _ => 0).zero i = true ∨
            advModel.elem i ∈ (LinearFit.finalState advModel fun _ => 0).removed ∪
              (LinearFit.finalState advModel fun _ => 0).remove →
          KRatioSet.lookupKey (LinearFit.get_k_ratios advModel fun _ => 0)
              (advModel.xrtSet i) =
            some 0)) :=
  ⟨fun i j hij => absurd (Subsingleton.elim i j) hij,
    C3_get_k_ratios_result 1 advModel (fun _ => 0)
      (fun i j hij => absurd (Subsingleton.elim i j) hij)⟩

/-! ## Statistical culling (`layers_edx/fitting/culling.py`)

`CullByVariance.compute` receives the parameter list and the fit-parameter
vector; only each parameter's `element` is read, so parameters are modelled by
their element codes. -/

/-- numpy `np.mean` of a one-dimensional array. -/
def npMean (xs : List ℚ) : ℚ := xs.sum / xs.length

/-- numpy `np.var` of a one-dimensional array (population variance). -/
def npVar (xs : List ℚ) : ℚ :=
  ((xs.map (fun x => (x - npMean xs) ^ 2)).sum) / xs.length

/-- The `kratios` list gathered for one element: the entries of `fit_result`
at the positions of the parameters with that element, in order. -/
def kratiosFor (params : List ℕ) (fit_result : List ℚ) (element : ℕ) : List ℚ :=
  ((List.range params.length).filter (fun i => params.getD i 0 = element)).map
    (fun i => fit_result.getD i 0)

/-- Method `CullByVariance.compute`: for each element of the parameter set,
flag it for removal when the mean of its k-ratios is below
`significance * np.var(kratio_mean)` — the variance of the scalar mean itself.
(The code also requires the mean not to be NaN; `ℚ` has no NaN, so that guard
has no counterpart here.) -/
def cullByVarianceCompute (significance : ℚ) (params : List ℕ)
    (fit_result : List ℚ) : Finset ℕ :=
  params.toFinset.filter (fun element =>
    let kratio_mean := npMean (kratiosFor params fit_result element)
    kratio_mean < significance * npVar [kratio_mean])

lemma npVar_singleton (x : ℚ) : npVar [x] = 0 := by
  simp [npVar, npMean]

/-- C7: `CullByVariance(significance).compute` flags exactly the elements
whose mean k-ratio is below `significance * var(mean)`; since the variance of
the single scalar mean is always `0`, this equals — for any (finite)
significance — the set of elements whose mean k-ratio is strictly negative. -/
theorem C7_cullByVariance_mean_negative (significance : ℚ) (params : List ℕ)
    (fit_result : List ℚ) :
    cullByVarianceCompute significance params fit_result =
      params.toFinset.filter
        (fun element => npMean (kratiosFor params fit_result element) < 0) := by
  rw [cullByVarianceCompute]
  refine Finset.filter_congr ?_
  intro e _
  show npMean (kratiosFor params fit_result e) <
      significance * npVar [npMean (kratiosFor params fit_result e)] ↔ _
  rw [npVar_singleton, mul_zero]

/-- C10: the result of `get_k_ratios` does not depend on the kratio values
stored in the parameters before the call: the method resets every parameter's
kratio to `0.0` at entry, so two runs differing only in those initial values
return equal results. -/
theorem C10_get_k_ratios_initial_kratio_independent (n : ℕ)
    (M : LinearFitModel n) (kratio1 kratio2 : Fin n → ℚ) :
    LinearFit.get_k_ratios M kratio1 = LinearFit.get_k_ratios M kratio2 := rfl

/-! ## Filtered spectrum (`layers_edx/fitting/filter_fit/filtered_spectrum.py`)

`FilteredSpectrum._compute` for an array-backed source spectrum (where
`channel_count == len(data)`).  The spectrum's energy calibration enters only
through `channel_from_energy` results, which are taken as the raw integers of
the `roi` field; `zero_peak_discriminator_channel` is the `lld` field. -/

/-- Module-level function `bound` of `layers_edx/spectrum/base_spectrum.py`:
clamp `x` into `[lower_inclusive, upper_exclusive)`. -/
def bound (x lower_inclusive upper_exclusive : ℤ) : ℤ :=
  if x < lower_inclusive then lower_inclusive
  else if upper_exclusive ≤ x then upper_exclusive - 1
  else x

/-- Inputs of `FilteredSpectrum._compute`. -/
structure FilteredSpectrumInput where
  srcData : List ℚ
  lld : ℕ
  filt : List ℚ
  dose : ℚ
  roi : Option (ℤ × ℤ)

namespace FilteredSpectrum

/-- Number of channels of the source spectrum (`len(self.source.data)`). -/
def channelCount (inp : FilteredSpectrumInput) : ℕ := inp.srcData.length

/-- Attribute `_normalization = 1.0 / self.source.properties.dose`. -/
def normalization (inp : FilteredSpectrumInput) : ℚ := 1 / inp.dose

/-- The `low_channel` of the computed region: `0` without an ROI, else
`self.source.bound(max(lld, channel_from_energy(roi.low_energy)))`. -/
def lowChannel (inp : FilteredSpectrumInput) : ℤ :=
  match inp.roi with
  | none => 0
  | some (rawLow, _) => bound (max (inp.lld : ℤ) rawLow) 0 (channelCount inp)

/-- The working `data` array: without an ROI, the copy of the source data with
`data[:lld] = data[lld]`; with an ROI, the slice
`data[low_channel : high_channel + 1]`. -/
def workData (inp : FilteredSpectrumInput) : List ℚ :=
  match inp.roi with
  | none =>
    inp.srcData.mapIdx
      (fun i x => if i < inp.lld then inp.srcData.getD inp.lld 0 else x)
  | some (rawLow, rawHigh) =>
    let low := bound (max (inp.lld : ℤ) rawLow) 0 (channelCount inp)
    let high := bound rawHigh 0 (channelCount inp)
    (inp.srcData.drop low.toNat).take (high + 1 - low).toNat

/-- Value `half_length = len(filter_array) // 2`. -/
def halfLength (inp : FilteredSpectrumInput) : ℕ := inp.filt.length / 2

/-- Value `other_length = len(filter_array) - half_length`. -/
def otherLength (inp : FilteredSpectrumInput) : ℕ :=
  inp.filt.length - halfLength inp

/-- The loop range `range(-half_length, len(data) + other_length)`. -/
def iRange (inp : FilteredSpectrumInput) : List ℤ :=
  (List.range ((workData inp).length + otherLength inp + halfLength inp)).map
    (fun (t : ℕ) => (t : ℤ) - (halfLength inp : ℤ))

/-- The boundary-clamped count read by the inner loop:
`data[bound(i - half_length + j, 0, len(data))]`. -/
def countAt (inp : FilteredSpectrumInput) (i : ℤ) (j : ℕ) : ℚ :=
  (workData inp).getD
    (bound (i - halfLength inp + j) 0 (workData inp).length).toNat 0

/-- The running sum `total` of one output channel:
`total += filter_array[j] * data[bound(...)]`. -/
def convTotal (inp : FilteredSpectrumInput) (i : ℤ) : ℚ :=
  (List.range inp.filt.length).foldl
    (fun total j => total + inp.filt.getD j 0 * countAt inp i j) 0

/-- The running sum `error` of one output channel:
`error += filter_array[j] * filter_result`. -/
def convErr (inp : FilteredSpectrumInput) (i : ℤ) : ℚ :=
  (List.range inp.filt.length).foldl
    (fun err j => err + inp.filt.getD j 0 * (inp.filt.getD j 0 * countAt inp i j)) 0

/-- Whether the loop body writes this iteration:
`0 <= channel < self.source.channel_count`. -/
def writeCond (inp : FilteredSpectrumInput) (i : ℤ) : Prop :=
  0 ≤ i + lowChannel inp ∧ i + lowChannel inp < (channelCount inp : ℤ)

instance (inp : FilteredSpectrumInput) (i : ℤ) : Decidable (writeCond inp i) :=
  inferInstanceAs (Decidable (_ ∧ _))

/-- The main loop: filtered values, and the raw `error` accumulator of each
written channel (`none` for channels never written, which stay `0.0`). -/
def computeFold (inp : FilteredSpectrumInput) : List ℚ × List (Option ℚ) :=
  (iRange inp).foldl
    (fun arrays i =>
      (if writeCond inp i then
        arrays.1.set (i + lowChannel inp).toNat (normalization inp * convTotal inp i)
      else arrays.1,
      if writeCond inp i then
        arrays.2.set (i + lowChannel inp).toNat (some (convErr inp i))
      else arrays.2))
    (List.replicate (channelCount inp) 0, List.replicate (channelCount inp) none)

/-- The `self._data` array of the filtered spectrum. -/
def filteredData (inp : FilteredSpectrumInput) : List ℚ := (computeFold inp).1

/-- The `self._error_data` array:
`normalization * math.sqrt(error) if error > 0.0 else np.inf` per written
channel, `0.0` elsewhere. -/
noncomputable def errorData (inp : FilteredSpectrumInput) : List EReal :=
  (computeFold inp).2.map
    (fun acc =>
      match acc with
      | none => (0 : EReal)
      | some err =>
        if 0 < err then
          (((normalization inp : ℝ) * Real.sqrt (err : ℝ) : ℝ) : EReal)
        else ⊤)

end FilteredSpectrum

lemma foldl_add_eq_sum (f : ℕ → ℚ) :
    ∀ (t : ℕ) (a : ℚ),
      (List.range t).foldl (fun acc j => acc + f j) a = a + ∑ j ∈ Finset.range t, f j := by
  intro t
  induction t with
  | zero => intro a; simp
  | succ t ih =>
    intro a
    rw [List.range_succ, List.foldl_append, List.foldl_cons, List.foldl_nil, ih,
      Finset.sum_range_succ]
    ring

lemma foldl_pair {α β γ : Type} (F : α × β → γ → α × β) (f : α → γ → α)
    (g : β → γ → β) (hF : ∀ p c, F p c = (f p.1 c, g p.2 c)) :
    ∀ (L : List γ) (a : α) (b : β),
      L.foldl F (a, b) = (L.foldl f a, L.foldl g b) := by
  intro L
  induction L with
  | nil => intro a b; rfl
  | cons c L ih =>
    intro a b
    rw [List.foldl_cons, List.foldl_cons, List.foldl_cons, hF, ih]

lemma foldl_setIf_length {α : Type} (condB : ℤ → Prop) [DecidablePred condB]
    (pos : ℤ → ℕ) (val : ℤ → α) :
    ∀ (L : List ℤ) (arr : List α),
      (L.foldl (fun a i => if condB i then a.set (pos i) (val i) else a) arr).length =
        arr.length := by
  intro L
  induction L with
  | nil => intro arr; rfl
  | cons c L ih =>
    intro arr
    rw [List.foldl_cons, ih]
    by_cases h : condB c
    · rw [if_pos h, List.length_set]
    · rw [if_neg h]

lemma foldl_setIf_getD {α : Type} (d : α) (condB : ℤ → Prop) [DecidablePred condB]
    (pos : ℤ → ℕ) (val : ℤ → α) :
    ∀ (L : List ℤ) (arr : List α) (i₀ : ℤ), i₀ ∈ L → condB i₀ →
      pos i₀ < arr.length →
      (∀ i ∈ L, condB i → pos i = pos i₀ → i = i₀) →
      (L.foldl (fun a i => if condB i then a.set (pos i) (val i) else a) arr).getD
          (pos i₀) d = val i₀ := by
  intro L
  induction L using List.reverseRecOn with
  | nil => intro arr i₀ hmem; exact absurd hmem (List.not_mem_nil i₀)
  | append_singleton L a ih =>
    intro arr i₀ hmem hcond hlt hinj
    rw [List.foldl_append, List.foldl_cons, List.foldl_nil]
    by_cases hwrite : condB a ∧ pos a = pos i₀
    · have hai : a = i₀ := hinj a (by simp) hwrite.1 hwrite.2
      rw [if_pos hwrite.1, set_getD, hwrite.2, if_pos]
      · rw [hai]
      · exact ⟨rfl, by rw [foldl_setIf_length]; exact hlt⟩
    · have hmem' : i₀ ∈ L := by
        rcases List.mem_append.mp hmem with h | h
        · exact h
        · rcases List.mem_singleton.mp h with rfl
          exact absurd ⟨hcond, rfl⟩ hwrite
      have hstep : ∀ (b : List α),
          (if condB a then b.set (pos a) (val a) else b).getD (pos i₀) d =
            b.getD (pos i₀) d := by
        intro b
        by_cases hc : condB a
        · rw [if_pos hc, set_getD, if_neg]
          rintro ⟨hp, _⟩
          exact hwrite ⟨hc, hp⟩
        · rw [if_neg hc]
      rw [hstep]
      exact ih arr i₀ hmem' hcond hlt
        (fun i hi hc hp => hinj i (List.mem_append.mpr (Or.inl hi)) hc hp)

namespace FilteredSpectrum

lemma computeFold_eq (inp : FilteredSpectrumInput) :
    computeFold inp =
      ((iRange inp).foldl
        (fun arr i =>
          if writeCond inp i then
            arr.set (i + lowChannel inp).toNat (normalization inp * convTotal inp i)
          else arr)
        (List.replicate (channelCount inp) 0),
      (iRange inp).foldl
        (fun arr i =>
          if writeCond inp i then
            arr.set (i + lowChannel inp).toNat (some (convErr inp i))
          else arr)
        (List.replicate (channelCount inp) none)) :=
  foldl_pair _
    (fun (arr : List ℚ) (i : ℤ) =>
      if writeCond inp i then
        arr.set (i + lowChannel inp).toNat (normalization inp * convTotal inp i)
      else arr)
    (fun (arr : List (Option ℚ)) (i : ℤ) =>
      if writeCond inp i then
        arr.set (i + lowChannel inp).toNat (some (convErr inp i))
      else arr)
    (fun p c => rfl)
    (iRange inp) (List.replicate (channelCount inp) 0)
    (List.replicate (channelCount inp) none)

lemma convTotal_eq_sum (inp : FilteredSpectrumInput) (i : ℤ) :
    convTotal inp i =
      ∑ j ∈ Finset.range inp.filt.length, inp.filt.getD j 0 * countAt inp i j := by
  rw [convTotal, foldl_add_eq_sum, zero_add]

lemma convErr_eq_sum (inp : FilteredSpectrumInput) (i : ℤ) :
    convErr inp i =
      ∑ j ∈ Finset.range inp.filt.length,
        inp.filt.getD j 0 * (inp.filt.getD j 0 * countAt inp i j) := by
  rw [convErr, foldl_add_eq_sum, zero_add]

end FilteredSpectrum

/-- C5: every computed channel `ch` of a `FilteredSpectrum` carries
`data[ch] = (1/dose) * Σ_j kernel_j * count_j` and
`error_data[ch] = (1/dose) * sqrt(Σ_j kernel_j * (kernel_j * count_j))` when
that sum is positive, `+∞` otherwise, where the count indices are
boundary-clamped by `bound` (edge replication: `bound x 0 L` clamps into
`[0, L-1]`, never substituting zero). -/
theorem C5_filteredSpectrum_formula (inp : FilteredSpectrumInput) (ch : ℕ)
    (hch : ch < FilteredSpectrum.channelCount inp)
    (hlo : FilteredSpectrum.lowChannel inp - FilteredSpectrum.halfLength inp ≤ (ch : ℤ))
    (hhi : (ch : ℤ) < FilteredSpectrum.lowChannel inp +
      (FilteredSpectrum.workData inp).length + FilteredSpectrum.otherLength inp) :
    (FilteredSpectrum.filteredData inp).getD ch 0 =
      (1 / inp.dose) *
        ∑ j ∈ Finset.range inp.filt.length,
          inp.filt.getD j 0 *
            FilteredSpectrum.countAt inp ((ch : ℤ) - FilteredSpectrum.lowChannel inp) j
    ∧ (FilteredSpectrum.errorData inp).getD ch 0 =
        (if 0 < ∑ j ∈ Finset.range inp.filt.length,
            inp.filt.getD j 0 * (inp.filt.getD j 0 *
              FilteredSpectrum.countAt inp ((ch : ℤ) - FilteredSpectrum.lowChannel inp) j)
        then
          ((((1 / inp.dose : ℚ) : ℝ) *
            Real.sqrt ((∑ j ∈ Finset.range inp.filt.length,
              inp.filt.getD j 0 * (inp.filt.getD j 0 *
                FilteredSpectrum.countAt inp
                  ((ch : ℤ) - FilteredSpectrum.lowChannel inp) j) : ℚ) : ℝ) : ℝ) : EReal)
        else ⊤)
    ∧ (∀ x : ℤ, ∀ L : ℕ, 0 < L → bound x 0 L = max 0 (min x ((L : ℤ) - 1))) := by
  obtain ⟨i₀, hi₀⟩ : ∃ i₀ : ℤ, i₀ = (ch : ℤ) - FilteredSpectrum.lowChannel inp :=
    ⟨_, rfl⟩
  rw [← hi₀]
  have hcond : FilteredSpectrum.writeCond inp i₀ := by
    constructor
    · omega
    · omega
  have hpos_eq : (i₀ + FilteredSpectrum.lowChannel inp).toNat = ch := by omega
  have hmem : i₀ ∈ FilteredSpectrum.iRange inp := by
    rw [FilteredSpectrum.iRange]
    simp only [List.mem_map, List.mem_range]
    refine ⟨(i₀ + FilteredSpectrum.halfLength inp).toNat, ?_, ?_⟩
    · omega
    · omega
  have hinj : ∀ i ∈ FilteredSpectrum.iRange inp, FilteredSpectrum.writeCond inp i →
      (i + FilteredSpectrum.lowChannel inp).toNat =
        (i₀ + FilteredSpectrum.lowChannel inp).toNat → i = i₀ := by
    intro i _ hc hp
    have h1 := hc.1
    omega
  have hfold1 : (FilteredSpectrum.filteredData inp).getD ch 0 =
      FilteredSpectrum.normalization inp * FilteredSpectrum.convTotal inp i₀ := by
    rw [FilteredSpectrum.filteredData, FilteredSpectrum.computeFold_eq]
    rw [← hpos_eq]
    exact foldl_setIf_getD 0 (FilteredSpectrum.writeCond inp)
      (fun i => (i + FilteredSpectrum.lowChannel inp).toNat)
      (fun i => FilteredSpectrum.normalization inp * FilteredSpectrum.convTotal inp i)
      (FilteredSpectrum.iRange inp) _ i₀ hmem hcond
      (by
        show (i₀ + FilteredSpectrum.lowChannel inp).toNat <
          (List.replicate (FilteredSpectrum.channelCount inp) (0 : ℚ)).length
        rw [List.length_replicate]
        omega) hinj
  have hlen2 : (FilteredSpectrum.computeFold inp).2.length =
      FilteredSpectrum.channelCount inp := by
    rw [FilteredSpectrum.computeFold_eq]
    rw [foldl_setIf_length, List.length_replicate]
  have hfold2 : (FilteredSpectrum.computeFold inp).2.getD ch none =
      some (FilteredSpectrum.convErr inp i₀) := by
    rw [FilteredSpectrum.computeFold_eq]
    rw [← hpos_eq]
    exact foldl_setIf_getD none (FilteredSpectrum.writeCond inp)
      (fun i => (i + FilteredSpectrum.lowChannel inp).toNat)
      (fun i => some (FilteredSpectrum.convErr inp i))
      (FilteredSpectrum.iRange inp) _ i₀ hmem hcond
      (by
        show (i₀ + FilteredSpectrum.lowChannel inp).toNat <
          (List.replicate (FilteredSpectrum.channelCount inp)
            (none : Option ℚ)).length
        rw [List.length_replicate]
        omega) hinj
  refine ⟨?_, ?_, ?_⟩
  · rw [hfold1, FilteredSpectrum.convTotal_eq_sum]
    rfl
  · have hchlen : ch < ((FilteredSpectrum.computeFold inp).2.map
        (fun acc =>
          match acc with
          | none => (0 : EReal)
          | some err =>
            if 0 < err then
              (((FilteredSpectrum.normalization inp : ℝ) *
                Real.sqrt (err : ℝ) : ℝ) : EReal)
            else ⊤)).length := by
      rw [List.length_map, hlen2]
      exact hch
    rw [FilteredSpectrum.errorData, List.getD_eq_getElem _ _ hchlen, List.getElem_map]
    have hch2 : ch < (FilteredSpectrum.computeFold inp).2.length := by
      rw [hlen2]; exact hch
    have hgetm : (FilteredSpectrum.computeFold inp).2[ch] =
        some (FilteredSpectrum.convErr inp i₀) := by
      rw [← List.getD_eq_getElem _ none hch2]
      exact hfold2
    rw [hgetm]
    rw [FilteredSpectrum.convErr_eq_sum]
    rfl
  · intro x L hL
    rw [bound]
    split_ifs <;> omega

/-- Python `int(x)` conversion on a float: truncation toward zero.  Used by
`BaseSpectrum.channel_from_energy`. -/
def pyInt (q : ℚ) : ℤ := if q < 0 then ⌈q⌉ else ⌊q⌋

/-- Shallow model of a `BaseSpectrum` instance as consumed by
`background_corrected_integral`: the channel geometry, the per-channel
`counts`, and the two one-sided `estimate_background` calls abstracted as
functions of their `start` channel.  The least-squares search inside
`estimate_background` is opaque numerics; only the
`(best_result, max(1.0, best_error))` pair it returns at the given start
channel matters to `background_corrected_integral`, so `estLow start`
models `estimate_background("low", start)[:2]` and `estHigh start` models
`estimate_background("high", start)[:2]`. -/
structure SpectrumModel where
  channelCount : ℕ
  zeroOffset : ℚ
  channelWidth : ℚ
  counts : ℤ → ℚ
  estLow : ℤ → ℚ × ℚ
  estHigh : ℤ → ℚ × ℚ

namespace BaseSpectrum

/-- `BaseSpectrum.channel_from_energy`: `int((energy - zero_offset) / channel_width)`. -/
def channel_from_energy (s : SpectrumModel) (energy : ℚ) : ℤ :=
  pyInt ((energy - s.zeroOffset) / s.channelWidth)

/-- The method `BaseSpectrum.bound`, delegating to the module-level `bound`
with the interval `[0, channel_count)`. -/
def boundChannel (s : SpectrumModel) (channel : ℤ) : ℤ :=
  bound channel 0 s.channelCount

/-- The accumulation loop
`for channel in range(min_channel, max_channel + 1): integral += self.counts(channel)`. -/
def integralLoop (s : SpectrumModel) (minC maxC : ℤ) : ℚ :=
  (List.range (maxC + 1 - minC).toNat).foldl
    (fun acc (i : ℕ) => acc + s.counts (minC + (i : ℤ))) 0

/-- `BaseSpectrum.background_corrected_integral`, returning the 4-tuple
`(integral - above, sqrt(dev_above * dev_above + integral), integral, above)`. -/
noncomputable def background_corrected_integral (s : SpectrumModel)
    (e_low e_high : ℚ) : ℚ × ℝ × ℚ × ℚ :=
  let min_channel := boundChannel s (channel_from_energy s e_low)
  let max_channel := boundChannel s (channel_from_energy s e_high)
  let low := s.estLow (min_channel - 1)
  let high := s.estHigh (max_channel + 1)
  let above : ℚ := (1 / 2) * (low.1 + high.1) * ((max_channel - min_channel + 1 : ℤ) : ℚ)
  let dev_above : ℝ :=
    if low.1 + high.1 ≠ 0 then
      (Real.sqrt ((low.2 * low.2 + high.2 * high.2 : ℚ) : ℝ) /
          ((low.1 + high.1 : ℚ) : ℝ)) * ((above : ℚ) : ℝ)
    else 1
  let integral := integralLoop s min_channel max_channel
  (integral - above,
    Real.sqrt (dev_above * dev_above + (integral : ℝ)),
    integral, above)

lemma integralLoop_eq_sum (s : SpectrumModel) (minC maxC : ℤ) :
    integralLoop s minC maxC =
      ∑ i ∈ Finset.range (maxC + 1 - minC).toNat, s.counts (minC + i) := by
  rw [integralLoop, foldl_add_eq_sum, zero_add]

end BaseSpectrum

/-- C8: `background_corrected_integral` returns the raw channel sum over the
window minus the average of the two one-sided background estimates times the
window width in channels; the reported uncertainty is
`sqrt(dev_above^2 + raw_sum)`, where `dev_above` is the defined fallback `1.0`
exactly when the two one-sided background estimates sum to zero, and the
relative-error propagation formula otherwise.  The third and fourth components
are the raw sum and the background term themselves. -/
theorem C8_background_corrected_integral (s : SpectrumModel) (e_low e_high : ℚ) :
    let minC := BaseSpectrum.boundChannel s (BaseSpectrum.channel_from_energy s e_low)
    let maxC := BaseSpectrum.boundChannel s (BaseSpectrum.channel_from_energy s e_high)
    let low := s.estLow (minC - 1)
    let high := s.estHigh (maxC + 1)
    let rawSum : ℚ := ∑ i ∈ Finset.range (maxC + 1 - minC).toNat, s.counts (minC + i)
    let background : ℚ := ((low.1 + high.1) / 2) * ((maxC - minC + 1 : ℤ) : ℚ)
    let dev : ℝ :=
      if low.1 + high.1 = 0 then 1
      else (Real.sqrt ((low.2 * low.2 + high.2 * high.2 : ℚ) : ℝ) /
          ((low.1 + high.1 : ℚ) : ℝ)) * ((background : ℚ) : ℝ)
    (BaseSpectrum.background_corrected_integral s e_low e_high).1 = rawSum - background
    ∧ (BaseSpectrum.background_corrected_integral s e_low e_high).2.1 =
        Real.sqrt (dev * dev + (rawSum : ℝ))
    ∧ (BaseSpectrum.background_corrected_integral s e_low e_high).2.2.1 = rawSum
    ∧ (BaseSpectrum.background_corrected_integral s e_low e_high).2.2.2 = background := by
  intro minC maxC low high rawSum background dev
  have habove : (1 / 2 : ℚ) * (low.1 + high.1) * ((maxC - minC + 1 : ℤ) : ℚ) = background := by
    show _ = ((low.1 + high.1) / 2) * ((maxC - minC + 1 : ℤ) : ℚ)
    ring
  have hsum : BaseSpectrum.integralLoop s minC maxC = rawSum :=
    BaseSpectrum.integralLoop_eq_sum s minC maxC
  have hdev :
      (if low.1 + high.1 ≠ 0 then
          (Real.sqrt ((low.2 * low.2 + high.2 * high.2 : ℚ) : ℝ) /
              ((low.1 + high.1 : ℚ) : ℝ)) * ((background : ℚ) : ℝ)
        else 1) = dev := by
    show _ = if low.1 + high.1 = 0 then (1 : ℝ) else _
    by_cases h : low.1 + high.1 = 0 <;> simp [h]
  simp only [BaseSpectrum.background_corrected_integral, habove, hsum, hdev]
  exact ⟨trivial, trivial, trivial, trivial⟩

/-- Concrete input for the C5 witness: a two-channel spectrum, unit filter,
unit dose, no ROI. -/
def fsInput : FilteredSpectrumInput := ⟨[1, 2], 0, [1], 1, none⟩

/-- C5 witness: the theorem applied at the concrete input and channel `0`. -/
theorem C5_filteredSpectrum_formula_witness :
    (0 < FilteredSpectrum.channelCount fsInput ∧
      FilteredSpectrum.lowChannel fsInput - FilteredSpectrum.halfLength fsInput ≤
        ((0 : ℕ) : ℤ) ∧
      ((0 : ℕ) : ℤ) < FilteredSpectrum.lowChannel fsInput +
        (FilteredSpectrum.workData fsInput).length + FilteredSpectrum.otherLength fsInput) ∧
    ((FilteredSpectrum.filteredData fsInput).getD 0 0 =
      (1 / fsInput.dose) *
        ∑ j ∈ Finset.range fsInput.filt.length,
          fsInput.filt.getD j 0 *
            FilteredSpectrum.countAt fsInput
              (((0 : ℕ) : ℤ) - FilteredSpectrum.lowChannel fsInput) j
    ∧ (FilteredSpectrum.errorData fsInput).getD 0 0 =
        (if 0 < ∑ j ∈ Finset.range fsInput.filt.length,
            fsInput.filt.getD j 0 * (fsInput.filt.getD j 0 *
              FilteredSpectrum.countAt fsInput
                (((0 : ℕ) : ℤ) - FilteredSpectrum.lowChannel fsInput) j)
        then
          ((((1 / fsInput.dose : ℚ) : ℝ) *
            Real.sqrt ((∑ j ∈ Finset.range fsInput.filt.length,
              fsInput.filt.getD j 0 * (fsInput.filt.getD j 0 *
                FilteredSpectrum.countAt fsInput
                  (((0 : ℕ) : ℤ) - FilteredSpectrum.lowChannel fsInput) j) : ℚ) : ℝ) :
              ℝ) : EReal)
        else ⊤)
    ∧ (∀ x : ℤ, ∀ L : ℕ, 0 < L → bound x 0 L = max 0 (min x ((L : ℤ) - 1)))) :=
  ⟨⟨by decide, by decide, by decide⟩,
    C5_filteredSpectrum_formula fsInput 0 (by decide) (by decide) (by decide)⟩

end LayersEdx
